import Mathlib

/-!
Verification of the TOON codec layer of the `gemini-rust` repository.

The repository's own source (`src/common/format.rs`) contains exactly two
forwarding functions, `toon::to_string` and `toon::from_str`, which delegate
to the external `rtoon` crate and box the error.  The codec itself (encoder,
decoder, value model, typed bridge) is not part of the repository's source;
the specification describes its intended design in detail.  Following that
design, the codec below is modelled from the specification: a generic `Value`
tree, an indentation-based block encoder, a line/indentation-stack decoder
with scalar-coercion precedence null → boolean → integer → float →
quoted-string → bare string, error taxonomy `ParseError` / `TypeMismatch` /
`MissingField` / `UnsupportedValue`, and a typed bridge for a record type.
The two wrapper functions themselves are translated directly from
`src/common/format.rs`.
-/

/-- Numbers of the value model.  The specification fixes "float64-precision"
literals; the model keeps the literal shape: an integer literal, or a decimal
literal `m × 10^-(e+1)` rendered with `e+1` fractional digits, plus the
non-finite values NaN and ±Infinity which the encoder must reject. -/
inductive TNum where
  | int (i : Int)
  | dec (m : Int) (e : Nat)
  | nan
  | inf (neg : Bool)

/-- Modelled from the spec: the generic Value tree (§3 Data Model): a closed
variant over null, boolean, number, string, ordered sequence and ordered
mapping (list of key/value pairs, insertion order preserved). -/
inductive Value where
  | null
  | bool (b : Bool)
  | num (n : TNum)
  | str (s : String)
  | seq (xs : List Value)
  | map (es : List (String × Value))

/-- Modelled from the spec: the error taxonomy of §7. -/
inductive FormatError where
  | parseError (msg : String)
  | typeMismatch (expected actual : String)
  | missingField (name : String)
  | unsupportedValue (msg : String)
deriving DecidableEq

/-! ### Decimal digit machinery -/

/-- Decimal digit characters. -/
def digitChar : Nat → Char
  | 0 => '0'
  | 1 => '1'
  | 2 => '2'
  | 3 => '3'
  | 4 => '4'
  | 5 => '5'
  | 6 => '6'
  | 7 => '7'
  | 8 => '8'
  | _ => '9'

def isDigitC (c : Char) : Bool := 48 ≤ c.toNat && c.toNat ≤ 57

def digitVal (c : Char) : Nat := c.toNat - 48

/-- Fueled most-significant-first decimal rendering of a natural number. -/
def natDigitsAux : Nat → Nat → List Char → List Char
  | 0, _, acc => acc
  | f + 1, n, acc =>
    if n < 10 then digitChar n :: acc
    else natDigitsAux f (n / 10) (digitChar (n % 10) :: acc)

/-- Decimal digits of a natural number, most significant first. -/
def natDigits (n : Nat) : List Char := natDigitsAux (n + 1) n []

/-- Read a digit string (most significant first) into a natural number. -/
def readDigits : Nat → List Char → Nat
  | acc, [] => acc
  | acc, c :: cs => readDigits (acc * 10 + digitVal c) cs

def allDigits : List Char → Bool
  | [] => true
  | c :: cs => isDigitC c && allDigits cs

theorem digitVal_digitChar {k : Nat} (h : k < 10) : digitVal (digitChar k) = k := by
  interval_cases k <;> rfl

theorem isDigitC_digitChar {k : Nat} (h : k < 10) : isDigitC (digitChar k) = true := by
  interval_cases k <;> rfl

theorem natDigitsAux_acc : ∀ (f n : Nat) (acc : List Char),
    natDigitsAux f n acc = natDigitsAux f n [] ++ acc := by
  intro f
  induction f with
  | zero => intro n acc; rfl
  | succ f ih =>
    intro n acc
    by_cases h : n < 10
    · simp [natDigitsAux, h]
    · simp only [natDigitsAux, h, if_false]
      rw [ih (n / 10) (digitChar (n % 10) :: acc), ih (n / 10) [digitChar (n % 10)]]
      simp

theorem natDigitsAux_fuel : ∀ (n f g : Nat), n < f → n < g →
    natDigitsAux f n [] = natDigitsAux g n [] := by
  intro n
  induction n using Nat.strong_induction_on with
  | _ n ih =>
    intro f g hf hg
    match f, g with
    | f + 1, g + 1 =>
      by_cases h : n < 10
      · simp [natDigitsAux, h]
      · simp only [natDigitsAux, h, if_false]
        rw [natDigitsAux_acc f, natDigitsAux_acc g]
        have hn : 0 < n := by omega
        have hdiv : n / 10 < n := Nat.div_lt_self hn (by omega)
        rw [ih (n / 10) hdiv (f := f) (g := g) (by omega) (by omega)]

theorem natDigits_unfold (n : Nat) :
    natDigits n = if n < 10 then [digitChar n]
      else natDigits (n / 10) ++ [digitChar (n % 10)] := by
  by_cases h : n < 10
  · rw [if_pos h]
    show natDigitsAux (n + 1) n [] = _
    rw [natDigitsAux]
    rw [if_pos h]
  · rw [if_neg h]
    show natDigitsAux (n + 1) n [] = _
    rw [natDigitsAux]
    rw [if_neg h]
    rw [natDigitsAux_acc n (n / 10) [digitChar (n % 10)]]
    have hn : 0 < n := by omega
    have hdiv : n / 10 < n := Nat.div_lt_self hn (by omega)
    rw [natDigitsAux_fuel (n / 10) n (n / 10 + 1) hdiv (Nat.lt_succ_self _)]
    rfl

theorem readDigits_append : ∀ (xs : List Char) (a : Nat) (ys : List Char),
    readDigits a (xs ++ ys) = readDigits (readDigits a xs) ys := by
  intro xs
  induction xs with
  | nil => intro a ys; rfl
  | cons c cs ih => intro a ys; exact ih (a * 10 + digitVal c) ys

theorem readDigits_natDigits : ∀ n, readDigits 0 (natDigits n) = n := by
  intro n
  induction n using Nat.strong_induction_on with
  | _ n ih =>
    rw [natDigits_unfold]
    by_cases h : n < 10
    · rw [if_pos h]
      show 0 * 10 + digitVal (digitChar n) = n
      rw [digitVal_digitChar h]
      omega
    · rw [if_neg h]
      rw [readDigits_append]
      have hn : 0 < n := by omega
      have hdiv : n / 10 < n := Nat.div_lt_self hn (by omega)
      rw [ih (n / 10) hdiv]
      show n / 10 * 10 + digitVal (digitChar (n % 10)) = n
      rw [digitVal_digitChar (Nat.mod_lt n (show 0 < 10 by omega))]
      omega

theorem allDigits_append (xs ys : List Char) :
    allDigits (xs ++ ys) = (allDigits xs && allDigits ys) := by
  induction xs with
  | nil => rfl
  | cons c cs ih => simp [allDigits, ih, Bool.and_assoc]

theorem allDigits_natDigits : ∀ n, allDigits (natDigits n) = true := by
  intro n
  induction n using Nat.strong_induction_on with
  | _ n ih =>
    rw [natDigits_unfold]
    by_cases h : n < 10
    · rw [if_pos h]
      show (isDigitC (digitChar n) && allDigits []) = true
      rw [isDigitC_digitChar h]
      rfl
    · rw [if_neg h]
      rw [allDigits_append]
      have hn : 0 < n := by omega
      have hdiv : n / 10 < n := Nat.div_lt_self hn (by omega)
      rw [ih (n / 10) hdiv]
      show (true && (isDigitC (digitChar (n % 10)) && allDigits [])) = true
      rw [isDigitC_digitChar (Nat.mod_lt n (show 0 < 10 by omega))]
      rfl

theorem natDigits_ne_nil (n : Nat) : natDigits n ≠ [] := by
  rw [natDigits_unfold]
  by_cases h : n < 10 <;> simp [h]

theorem exists_head_natDigits (n : Nat) :
    ∃ c cs, natDigits n = c :: cs ∧ isDigitC c = true := by
  have hne := natDigits_ne_nil n
  have hall := allDigits_natDigits n
  match hd : natDigits n with
  | [] => exact absurd hd hne
  | c :: cs =>
    refine ⟨c, cs, rfl, ?_⟩
    rw [hd] at hall
    simp [allDigits] at hall
    exact hall.1

/-! ### Scalar token rendering -/

/-- Render an integer literal. -/
def renderInt (i : Int) : List Char :=
  if i < 0 then '-' :: natDigits i.natAbs else natDigits i.natAbs

/-- Pad a digit string with leading zeros until it has at least `k + 1`
characters. -/
def padDigits (k : Nat) (ds : List Char) : List Char :=
  if ds.length < k + 1 then List.replicate (k + 1 - ds.length) '0' ++ ds else ds

/-- Render an unsigned decimal literal with exactly `k` fractional digits. -/
def renderUDec (k n : Nat) : List Char :=
  (padDigits k (natDigits n)).take ((padDigits k (natDigits n)).length - k) ++
    '.' :: (padDigits k (natDigits n)).drop ((padDigits k (natDigits n)).length - k)

/-- Render a decimal literal `m × 10^-(e+1)` with exactly `e + 1`
fractional digits. -/
def renderDec (m : Int) (e : Nat) : List Char :=
  (if m < 0 then ['-'] else []) ++ renderUDec (e + 1) m.natAbs

/-- Parse an unsigned integer token: a nonempty all-digit string. -/
def parseUIntTok : List Char → Option Nat
  | [] => none
  | c :: cs => if allDigits (c :: cs) then some (readDigits 0 (c :: cs)) else none

/-- Parse an integer token: optional minus sign, then nonempty digits. -/
def parseIntTok : List Char → Option Int
  | [] => none
  | c :: cs =>
    if c = '-' then (parseUIntTok cs).map (fun n => -(n : Int))
    else (parseUIntTok (c :: cs)).map (fun n => (n : Int))

/-- Split a character list at the first dot. -/
def splitDot : List Char → Option (List Char × List Char)
  | [] => none
  | c :: rest =>
    if c = '.' then some ([], rest)
    else (splitDot rest).map (fun p => (c :: p.1, p.2))

/-- Parse an unsigned decimal token `digits.digits`; returns the mantissa and
the number of fractional digits minus one. -/
def parseUDecTok (cs : List Char) : Option (Nat × Nat) :=
  match splitDot cs with
  | none => none
  | some (ds1, ds2) =>
    if !ds1.isEmpty && !ds2.isEmpty && allDigits ds1 && allDigits ds2
    then some (readDigits (readDigits 0 ds1) ds2, ds2.length - 1)
    else none

/-- Parse a float token: optional minus sign, then an unsigned decimal. -/
def parseFloatTok : List Char → Option (Int × Nat)
  | [] => none
  | c :: cs =>
    if c = '-' then (parseUDecTok cs).map (fun p => (-(p.1 : Int), p.2))
    else (parseUDecTok (c :: cs)).map (fun p => ((p.1 : Int), p.2))

/-! ### Quoted strings -/

/-- Escape one character for a quoted string. -/
def escChar (c : Char) : List Char :=
  if c = '"' then ['\\', '"']
  else if c = '\\' then ['\\', '\\']
  else if c = '\n' then ['\\', 'n']
  else if c = '\r' then ['\\', 'r']
  else [c]

def escapeChars : List Char → List Char
  | [] => []
  | c :: cs => escChar c ++ escapeChars cs

def unescChar (c : Char) : Option Char :=
  if c = '"' then some '"'
  else if c = '\\' then some '\\'
  else if c = 'n' then some '\n'
  else if c = 'r' then some '\r'
  else none

mutual

/-- Read the body of a quoted string up to the closing quote; returns the
unescaped content and the remaining characters after the quote, or `none`
when the quote is unterminated or an escape is invalid. -/
def unescapeAux : List Char → Option (List Char × List Char)
  | [] => none
  | c :: rest =>
    if c = '"' then some ([], rest)
    else if c = '\\' then unescEsc rest
    else match unescapeAux rest with
      | some (s, r) => some (c :: s, r)
      | none => none

/-- Read the character after a backslash escape and continue. -/
def unescEsc : List Char → Option (List Char × List Char)
  | [] => none
  | e :: rest =>
    match unescChar e, unescapeAux rest with
    | some u, some (s, r) => some (u :: s, r)
    | _, _ => none

end

/-! ### Quoting decisions -/

def headIs (cs : List Char) (c : Char) : Bool :=
  match cs with
  | [] => false
  | x :: _ => x == c

def lastIs (cs : List Char) (c : Char) : Bool := headIs cs.reverse c

/-- Whether the bare token would coerce to something other than a string:
one of the reserved literals, an empty-collection marker, an integer, or a
float. -/
def coercesNonString (cs : List Char) : Bool :=
  decide (cs = "null".data) || decide (cs = "true".data) || decide (cs = "false".data) ||
  decide (cs = "[]".data) || decide (cs = "\x7b\x7d".data) ||
  (parseIntTok cs).isSome || (parseFloatTok cs).isSome

/-- Modelled from the spec: a string value is quoted exactly when its bare
form would be ambiguous with structural syntax — colon, dash prefix,
leading/trailing whitespace, line breaks, a leading quote — or would itself
parse as a different scalar type (§4.2). -/
def needsQuoting (cs : List Char) : Bool :=
  cs.isEmpty || headIs cs '"' || headIs cs ' ' || headIs cs '\t' || headIs cs '-' ||
  lastIs cs ' ' || lastIs cs '\t' ||
  cs.contains ':' || cs.contains '\n' || cs.contains '\r' ||
  coercesNonString cs

/-- Modelled from the spec: a mapping key is quoted exactly when its bare form
would be ambiguous with the line syntax (contains a colon or line break,
starts with a quote, whitespace or dash, or is empty). -/
def needsQuotingKey (cs : List Char) : Bool :=
  cs.isEmpty || headIs cs '"' || headIs cs ' ' || headIs cs '\t' || headIs cs '-' ||
  cs.contains ':' || cs.contains '\n' || cs.contains '\r'

def renderQuoted (cs : List Char) : List Char := '"' :: (escapeChars cs ++ ['"'])

def renderStrTok (s : String) : List Char :=
  if needsQuoting s.data then renderQuoted s.data else s.data

def renderKeyTok (s : String) : List Char :=
  if needsQuotingKey s.data then renderQuoted s.data else s.data

def renderNum : TNum → Except FormatError (List Char)
  | .int i => .ok (renderInt i)
  | .dec m e => .ok (renderDec m e)
  | .nan => .error (.unsupportedValue "non-finite number: NaN")
  | .inf _ => .error (.unsupportedValue "non-finite number: Infinity")

/-! ### Scalar coercion -/

/-- Modelled from the spec: scalar coercion in priority order — the
empty-collection markers, then null-literal, boolean-literal, integer, float,
quoted-string, bare string; the first pattern that matches wins (§4.1). -/
def coerceScalar (tok : List Char) : Except FormatError Value :=
  if tok = "[]".data then .ok (.seq [])
  else if tok = "\x7b\x7d".data then .ok (.map [])
  else if tok = "null".data then .ok .null
  else if tok = "true".data then .ok (.bool true)
  else if tok = "false".data then .ok (.bool false)
  else match parseIntTok tok with
  | some i => .ok (.num (.int i))
  | none => match parseFloatTok tok with
    | some p => .ok (.num (.dec p.1 p.2))
    | none => match tok with
      | [] => .ok (.str (String.mk []))
      | c :: rest =>
        if c = '"' then
          match unescapeAux rest with
          | some (s, []) => .ok (.str (String.mk s))
          | some (_, _ :: _) => .error (.parseError "unexpected characters after quoted string")
          | none => .error (.parseError "unterminated quoted string")
        else .ok (.str (String.mk (c :: rest)))

/-! ### Token parsing lemmas -/

theorem string_mk_data (s : String) : String.mk s.data = s := rfl

theorem allDigits_mem {cs : List Char} (h : allDigits cs = true) {c : Char} (hc : c ∈ cs) :
    isDigitC c = true := by
  induction cs with
  | nil => cases hc
  | cons d ds ih =>
    have h2 : (isDigitC d && allDigits ds) = true := h
    rw [Bool.and_eq_true] at h2
    cases hc with
    | head => exact h2.1
    | tail _ hm => exact ih h2.2 hm

theorem not_dot_of_allDigits {cs : List Char} (h : allDigits cs = true) : '.' ∉ cs := by
  intro hm
  have := allDigits_mem h hm
  simp [isDigitC] at this

theorem parseUIntTok_allDigits {cs : List Char} (hne : cs ≠ []) (h : allDigits cs = true) :
    parseUIntTok cs = some (readDigits 0 cs) := by
  match cs with
  | [] => exact absurd rfl hne
  | c :: cs2 =>
    simp only [parseUIntTok]
    rw [if_pos h]

theorem parseUIntTok_head_bad {c : Char} {cs : List Char} (h : isDigitC c = false) :
    parseUIntTok (c :: cs) = none := by
  simp only [parseUIntTok]
  rw [if_neg]
  intro hall
  have h2 : (isDigitC c && allDigits cs) = true := hall
  rw [Bool.and_eq_true] at h2
  rw [h2.1] at h
  exact Bool.noConfusion h

theorem parseUIntTok_dot {cs : List Char} (h : '.' ∈ cs) : parseUIntTok cs = none := by
  match cs with
  | [] => cases h
  | c :: cs2 =>
    simp only [parseUIntTok]
    rw [if_neg]
    intro hall
    exact not_dot_of_allDigits hall h

theorem parseUIntTok_natDigits (n : Nat) : parseUIntTok (natDigits n) = some n := by
  rw [parseUIntTok_allDigits (natDigits_ne_nil n) (allDigits_natDigits n),
    readDigits_natDigits]

theorem parseIntTok_renderInt (i : Int) : parseIntTok (renderInt i) = some i := by
  by_cases h : i < 0
  · rw [renderInt, if_pos h]
    have h1 : parseIntTok ('-' :: natDigits i.natAbs) =
        (parseUIntTok (natDigits i.natAbs)).map (fun n => -(n : Int)) := by
      simp [parseIntTok]
    rw [h1, parseUIntTok_natDigits]
    show some (-((i.natAbs : Nat) : Int)) = some i
    congr 1
    omega
  · rw [renderInt, if_neg h]
    obtain ⟨c, cs, hd, hdig⟩ := exists_head_natDigits i.natAbs
    have hcne : c ≠ '-' := by
      intro hc
      rw [hc] at hdig
      simp [isDigitC] at hdig
    have h1 : parseIntTok (c :: cs) =
        (parseUIntTok (c :: cs)).map (fun n => (n : Int)) := by
      simp [parseIntTok, hcne]
    rw [hd, h1, ← hd, parseUIntTok_natDigits]
    show some (((i.natAbs : Nat) : Int)) = some i
    congr 1
    omega

theorem splitDot_not_mem {cs : List Char} (h : '.' ∉ cs) : splitDot cs = none := by
  induction cs with
  | nil => rfl
  | cons c cs2 ih =>
    have hcne : c ≠ '.' := fun hc => h (by rw [hc]; exact List.mem_cons_self _ _)
    simp only [splitDot]
    rw [if_neg hcne, ih (fun hm => h (List.mem_cons_of_mem c hm))]
    rfl

theorem splitDot_append {ip : List Char} (fp : List Char) (h : '.' ∉ ip) :
    splitDot (ip ++ '.' :: fp) = some (ip, fp) := by
  induction ip with
  | nil =>
    show splitDot ('.' :: fp) = some ([], fp)
    simp [splitDot]
  | cons c cs ih =>
    have hcne : c ≠ '.' := fun hc => h (by rw [hc]; exact List.mem_cons_self _ _)
    simp only [List.cons_append, splitDot]
    rw [if_neg hcne, show cs.append ('.' :: fp) = cs ++ '.' :: fp from rfl,
      ih (fun hm => h (List.mem_cons_of_mem c hm))]
    rfl

theorem readDigits_zero_replicate (j : Nat) (cs : List Char) :
    readDigits 0 (List.replicate j '0' ++ cs) = readDigits 0 cs := by
  induction j with
  | zero => rfl
  | succ j ih =>
    rw [List.replicate_succ, List.cons_append]
    show readDigits (0 * 10 + digitVal '0') (List.replicate j '0' ++ cs) = _
    have : (0 : Nat) * 10 + digitVal '0' = 0 := by decide
    rw [this, ih]

theorem allDigits_replicate_zero (j : Nat) : allDigits (List.replicate j '0') = true := by
  induction j with
  | zero => rfl
  | succ j ih =>
    rw [List.replicate_succ]
    show (isDigitC '0' && allDigits (List.replicate j '0')) = true
    rw [ih]
    decide

theorem padDigits_length (k : Nat) (ds : List Char) : k + 1 ≤ (padDigits k ds).length := by
  rw [padDigits]
  by_cases h : ds.length < k + 1
  · rw [if_pos h]
    simp [List.length_append, List.length_replicate]
    omega
  · rw [if_neg h]
    omega

theorem allDigits_padDigits (k : Nat) {ds : List Char} (h : allDigits ds = true) :
    allDigits (padDigits k ds) = true := by
  rw [padDigits]
  by_cases hl : ds.length < k + 1
  · rw [if_pos hl, allDigits_append, allDigits_replicate_zero, h]
    rfl
  · rw [if_neg hl]
    exact h

theorem readDigits_padDigits (k : Nat) (ds : List Char) :
    readDigits 0 (padDigits k ds) = readDigits 0 ds := by
  rw [padDigits]
  by_cases hl : ds.length < k + 1
  · rw [if_pos hl, readDigits_zero_replicate]
  · rw [if_neg hl]

/-- Structure of a rendered unsigned decimal: integer-part digits, a dot,
and exactly `k` fractional digits, reading back to `n`. -/
theorem renderUDec_spec (k n : Nat) (hk : 0 < k) :
    ∃ ip fp, renderUDec k n = ip ++ '.' :: fp ∧ allDigits ip = true ∧
      allDigits fp = true ∧ ip ≠ [] ∧ fp ≠ [] ∧ fp.length = k ∧
      readDigits (readDigits 0 ip) fp = n := by
  have hlen := padDigits_length k (natDigits n)
  have hall := allDigits_padDigits k (allDigits_natDigits n)
  have hread := readDigits_padDigits k (natDigits n)
  set P := padDigits k (natDigits n) with hP
  refine ⟨P.take (P.length - k), P.drop (P.length - k), rfl, ?_, ?_, ?_, ?_, ?_, ?_⟩
  · have h2 : allDigits (P.take (P.length - k) ++ P.drop (P.length - k)) = true := by
      rw [List.take_append_drop]
      exact hall
    rw [allDigits_append, Bool.and_eq_true] at h2
    exact h2.1
  · have h2 : allDigits (P.take (P.length - k) ++ P.drop (P.length - k)) = true := by
      rw [List.take_append_drop]
      exact hall
    rw [allDigits_append, Bool.and_eq_true] at h2
    exact h2.2
  · have h2 : (P.take (P.length - k)).length = P.length - k := by
      rw [List.length_take]
      omega
    intro hnil
    rw [hnil] at h2
    simp at h2
    omega
  · have h2 : (P.drop (P.length - k)).length = k := by
      rw [List.length_drop]
      omega
    intro hnil
    rw [hnil] at h2
    simp at h2
    omega
  · rw [List.length_drop]
    omega
  · rw [← readDigits_append, List.take_append_drop, hread, readDigits_natDigits]

theorem parseUDecTok_renderUDec (k n : Nat) (hk : 0 < k) :
    parseUDecTok (renderUDec k n) = some (n, k - 1) := by
  obtain ⟨ip, fp, heq, hip, hfp, hipne, hfpne, hfplen, hread⟩ := renderUDec_spec k n hk
  rw [heq, parseUDecTok, splitDot_append fp (not_dot_of_allDigits hip)]
  have hcond : (!ip.isEmpty && !fp.isEmpty && allDigits ip && allDigits fp) = true := by
    rw [hip, hfp]
    cases ip with
    | nil => exact absurd rfl hipne
    | cons a as =>
      cases fp with
      | nil => exact absurd rfl hfpne
      | cons b bs => rfl
  show (if (!ip.isEmpty && !fp.isEmpty && allDigits ip && allDigits fp) = true
      then some (readDigits (readDigits 0 ip) fp, fp.length - 1) else none) = some (n, k - 1)
  rw [if_pos hcond, hread, hfplen]

theorem renderUDec_head (k n : Nat) (hk : 0 < k) :
    ∃ c cs, renderUDec k n = c :: cs ∧ isDigitC c = true ∧ '.' ∈ (c :: cs) := by
  obtain ⟨ip, fp, heq, hip, _, hipne, _, _, _⟩ := renderUDec_spec k n hk
  obtain ⟨a, as, hip3⟩ : ∃ a as, ip = a :: as := by
    cases ip with
    | nil => exact absurd rfl hipne
    | cons a as => exact ⟨a, as, rfl⟩
  subst hip3
  refine ⟨a, as ++ '.' :: fp, by rw [heq]; rfl, ?_, ?_⟩
  · exact allDigits_mem hip (List.mem_cons_self _ _)
  · right
    exact List.mem_append_right as (List.mem_cons_self _ _)

theorem digit_ne {a c : Char} (h : isDigitC a = true) (hc : isDigitC c = false) : a ≠ c := by
  intro he
  rw [he, hc] at h
  exact Bool.noConfusion h

theorem cons_ne_of_head {c d : Char} {cs ds : List Char} (h : c ≠ d) : c :: cs ≠ d :: ds := by
  intro he
  injection he with h1 h2
  exact h h1

theorem parseUDecTok_no_dot {cs : List Char} (h : '.' ∉ cs) : parseUDecTok cs = none := by
  rw [parseUDecTok, splitDot_not_mem h]

theorem parseUDecTok_head_bad {c : Char} {cs : List Char} (h1 : isDigitC c = false)
    (h2 : c ≠ '.') : parseUDecTok (c :: cs) = none := by
  rw [parseUDecTok]
  simp only [splitDot]
  rw [if_neg h2]
  match hsd : splitDot cs with
  | none => rfl
  | some p =>
    simp only [Option.map]
    have hall : allDigits (c :: p.1) = false := by
      show (isDigitC c && allDigits p.1) = false
      rw [h1]
      rfl
    simp [hall]

theorem parseIntTok_head_bad {c : Char} {cs : List Char} (h1 : isDigitC c = false)
    (h2 : c ≠ '-') : parseIntTok (c :: cs) = none := by
  simp only [parseIntTok]
  rw [if_neg h2, parseUIntTok_head_bad h1]
  rfl

theorem parseFloatTok_head_bad {c : Char} {cs : List Char} (h1 : isDigitC c = false)
    (h2 : c ≠ '.') (h3 : c ≠ '-') : parseFloatTok (c :: cs) = none := by
  simp only [parseFloatTok]
  rw [if_neg h3, parseUDecTok_head_bad h1 h2]
  rfl

theorem parseFloatTok_renderInt (i : Int) : parseFloatTok (renderInt i) = none := by
  have hnd : '.' ∉ natDigits i.natAbs := not_dot_of_allDigits (allDigits_natDigits _)
  by_cases h : i < 0
  · rw [renderInt, if_pos h]
    simp only [parseFloatTok]
    rw [if_pos trivial, parseUDecTok_no_dot hnd]
    rfl
  · rw [renderInt, if_neg h]
    obtain ⟨c, cs, hd, hdig⟩ := exists_head_natDigits i.natAbs
    rw [hd]
    simp only [parseFloatTok]
    rw [if_neg (digit_ne hdig (by decide)), ← hd, parseUDecTok_no_dot hnd]
    rfl

theorem parseFloatTok_renderDec (m : Int) (e : Nat) :
    parseFloatTok (renderDec m e) = some (m, e) := by
  by_cases h : m < 0
  · rw [renderDec, if_pos h, List.singleton_append]
    simp only [parseFloatTok]
    rw [if_pos trivial, parseUDecTok_renderUDec (e + 1) m.natAbs (by omega)]
    show some (-((m.natAbs : Nat) : Int), e + 1 - 1) = some (m, e)
    congr 1
    refine Prod.ext ?_ ?_
    · show -((m.natAbs : Nat) : Int) = m
      omega
    · rfl
  · rw [renderDec, if_neg h, List.nil_append]
    obtain ⟨a, as, hd, hdig, _⟩ := renderUDec_head (e + 1) m.natAbs (by omega)
    rw [hd]
    simp only [parseFloatTok]
    rw [if_neg (digit_ne hdig (by decide)), ← hd,
      parseUDecTok_renderUDec (e + 1) m.natAbs (by omega)]
    show some (((m.natAbs : Nat) : Int), e + 1 - 1) = some (m, e)
    congr 1
    refine Prod.ext ?_ ?_
    · show ((m.natAbs : Nat) : Int) = m
      omega
    · rfl

theorem renderDec_has_dot (m : Int) (e : Nat) : '.' ∈ renderDec m e := by
  obtain ⟨ip, fp, heq, _, _, _, _, _, _⟩ := renderUDec_spec (e + 1) m.natAbs (by omega)
  rw [renderDec, heq]
  by_cases h : m < 0
  · rw [if_pos h]
    refine List.mem_append_right _ (List.mem_append_right _ ?_)
    exact List.mem_cons_self _ _
  · rw [if_neg h]
    refine List.mem_append_right _ (List.mem_append_right _ ?_)
    exact List.mem_cons_self _ _

theorem parseIntTok_renderDec (m : Int) (e : Nat) : parseIntTok (renderDec m e) = none := by
  have hdot := renderDec_has_dot m e
  by_cases h : m < 0
  · rw [renderDec, if_pos h, List.singleton_append] at hdot ⊢
    simp only [parseIntTok]
    rw [if_pos trivial, parseUIntTok_dot (List.mem_of_ne_of_mem (by decide) hdot)]
    rfl
  · rw [renderDec, if_neg h, List.nil_append] at hdot ⊢
    obtain ⟨a, as, hd, hdig, _⟩ := renderUDec_head (e + 1) m.natAbs (by omega)
    rw [hd]
    simp only [parseIntTok]
    rw [if_neg (digit_ne hdig (by decide)), parseUIntTok_dot]
    · rfl
    · rw [← hd]
      exact hdot

theorem renderInt_head (i : Int) :
    ∃ c cs, renderInt i = c :: cs ∧ (c = '-' ∨ isDigitC c = true) := by
  by_cases h : i < 0
  · exact ⟨'-', natDigits i.natAbs, by rw [renderInt, if_pos h], Or.inl rfl⟩
  · obtain ⟨c, cs, hd, hdig⟩ := exists_head_natDigits i.natAbs
    exact ⟨c, cs, by rw [renderInt, if_neg h, hd], Or.inr hdig⟩

theorem renderDec_head (m : Int) (e : Nat) :
    ∃ c cs, renderDec m e = c :: cs ∧ (c = '-' ∨ isDigitC c = true) := by
  by_cases h : m < 0
  · exact ⟨'-', renderUDec (e + 1) m.natAbs,
      by rw [renderDec, if_pos h, List.singleton_append], Or.inl rfl⟩
  · obtain ⟨a, as, hd, hdig, _⟩ := renderUDec_head (e + 1) m.natAbs (by omega)
    exact ⟨a, as, by rw [renderDec, if_neg h, List.nil_append, hd], Or.inr hdig⟩

/-- A token starting with a minus sign or a digit is none of the reserved
literals or collection markers. -/
theorem numHead_ne_lits {c : Char} {cs : List Char} (h : c = '-' ∨ isDigitC c = true) :
    c :: cs ≠ "null".data ∧ c :: cs ≠ "true".data ∧ c :: cs ≠ "false".data ∧
    c :: cs ≠ "[]".data ∧ c :: cs ≠ "\x7b\x7d".data := by
  have hne : ∀ d : Char, isDigitC d = false → d ≠ '-' → c ≠ d := by
    intro d hd hdm
    cases h with
    | inl h1 =>
      rw [h1]
      exact fun he => hdm he.symm
    | inr h1 => exact digit_ne h1 hd
  refine ⟨cons_ne_of_head (hne 'n' (by decide) (by decide)),
    cons_ne_of_head (hne 't' (by decide) (by decide)),
    cons_ne_of_head (hne 'f' (by decide) (by decide)),
    cons_ne_of_head (hne '[' (by decide) (by decide)),
    cons_ne_of_head (hne (Char.ofNat 123) (by decide) (by decide))⟩

/-! ### Quoted string lemmas -/

theorem unescapeAux_quote (rest : List Char) : unescapeAux ('"' :: rest) = some ([], rest) := rfl

theorem unescapeAux_backslash (e : Char) (rest : List Char) :
    unescapeAux ('\\' :: e :: rest) =
      (match unescChar e, unescapeAux rest with
        | some u, some (s, r) => some (u :: s, r)
        | _, _ => none) := rfl

theorem unescapeAux_other {c : Char} (h1 : c ≠ '"') (h2 : c ≠ '\\') (rest : List Char) :
    unescapeAux (c :: rest) =
      (match unescapeAux rest with
        | some (s, r) => some (c :: s, r)
        | none => none) := by
  show (if c = '"' then some ([], rest)
    else if c = '\\' then unescEsc rest
    else match unescapeAux rest with
      | some (s, r) => some (c :: s, r)
      | none => none) = _
  rw [if_neg h1, if_neg h2]

theorem unescapeAux_escape : ∀ (cs rest : List Char),
    unescapeAux (escapeChars cs ++ '"' :: rest) = some (cs, rest) := by
  intro cs
  induction cs with
  | nil => intro rest; exact unescapeAux_quote rest
  | cons c cs ih =>
    intro rest
    show unescapeAux ((escChar c ++ escapeChars cs) ++ '"' :: rest) = some (c :: cs, rest)
    by_cases h1 : c = '"'
    · subst h1
      rw [show escChar '"' = ['\\', '"'] from rfl]
      show unescapeAux ('\\' :: '"' :: (escapeChars cs ++ '"' :: rest)) = _
      rw [unescapeAux_backslash, ih rest]
      rfl
    · by_cases h2 : c = '\\'
      · subst h2
        rw [show escChar '\\' = ['\\', '\\'] from rfl]
        show unescapeAux ('\\' :: '\\' :: (escapeChars cs ++ '"' :: rest)) = _
        rw [unescapeAux_backslash, ih rest]
        rfl
      · by_cases h3 : c = '\n'
        · subst h3
          rw [show escChar '\n' = ['\\', 'n'] from rfl]
          show unescapeAux ('\\' :: 'n' :: (escapeChars cs ++ '"' :: rest)) = _
          rw [unescapeAux_backslash, ih rest]
          rfl
        · by_cases h4 : c = '\r'
          · subst h4
            rw [show escChar '\r' = ['\\', 'r'] from rfl]
            show unescapeAux ('\\' :: 'r' :: (escapeChars cs ++ '"' :: rest)) = _
            rw [unescapeAux_backslash, ih rest]
            rfl
          · rw [escChar, if_neg h1, if_neg h2, if_neg h3, if_neg h4]
            show unescapeAux (c :: (escapeChars cs ++ '"' :: rest)) = _
            rw [unescapeAux_other h1 h2, ih rest]

theorem newline_not_mem_escChar (c : Char) : '\n' ∉ escChar c := by
  rw [escChar]
  split_ifs with h1 h2 h3 h4
  · decide
  · decide
  · decide
  · decide
  · intro hm
    rw [List.mem_singleton] at hm
    exact h3 hm.symm

theorem newline_not_mem_escapeChars (cs : List Char) : '\n' ∉ escapeChars cs := by
  induction cs with
  | nil => intro hm; cases hm
  | cons c cs ih =>
    intro hm
    rw [show escapeChars (c :: cs) = escChar c ++ escapeChars cs from rfl,
      List.mem_append] at hm
    cases hm with
    | inl h => exact newline_not_mem_escChar c h
    | inr h => exact ih h

theorem isSome_false_eq_none {α : Type} {o : Option α} (h : o.isSome = false) : o = none := by
  cases o with
  | none => rfl
  | some a => exact Bool.noConfusion h

theorem headIs_false {c d : Char} {cs : List Char} (h : headIs (c :: cs) d = false) : c ≠ d := by
  have h2 : (c == d) = false := h
  exact fun he => by rw [he] at h2; simp at h2

theorem coercesNonString_facts {cs : List Char} (h : coercesNonString cs = false) :
    cs ≠ "null".data ∧ cs ≠ "true".data ∧ cs ≠ "false".data ∧ cs ≠ "[]".data ∧
    cs ≠ "\x7b\x7d".data ∧ parseIntTok cs = none ∧ parseFloatTok cs = none := by
  rw [coercesNonString] at h
  simp only [Bool.or_eq_false_iff, decide_eq_false_iff_not] at h
  exact ⟨h.1.1.1.1.1.1, h.1.1.1.1.1.2, h.1.1.1.1.2, h.1.1.1.2, h.1.1.2,
    isSome_false_eq_none h.1.2, isSome_false_eq_none h.2⟩

theorem needsQuoting_facts {cs : List Char} (h : needsQuoting cs = false) :
    cs.isEmpty = false ∧ headIs cs '"' = false ∧ headIs cs ' ' = false ∧
    headIs cs '\t' = false ∧ headIs cs '-' = false ∧ lastIs cs ' ' = false ∧
    lastIs cs '\t' = false ∧ cs.contains ':' = false ∧ cs.contains '\n' = false ∧
    cs.contains '\r' = false ∧ coercesNonString cs = false := by
  rw [needsQuoting] at h
  simp only [Bool.or_eq_false_iff] at h
  exact ⟨h.1.1.1.1.1.1.1.1.1.1, h.1.1.1.1.1.1.1.1.1.2, h.1.1.1.1.1.1.1.1.2,
    h.1.1.1.1.1.1.1.2, h.1.1.1.1.1.1.2, h.1.1.1.1.1.2, h.1.1.1.1.2, h.1.1.1.2,
    h.1.1.2, h.1.2, h.2⟩

theorem coerceScalar_renderInt (i : Int) :
    coerceScalar (renderInt i) = .ok (.num (.int i)) := by
  obtain ⟨c, cs, hd, hh⟩ := renderInt_head i
  obtain ⟨hn, ht, hf, hsq, hcb⟩ := numHead_ne_lits hh
  rw [hd, coerceScalar, if_neg hsq, if_neg hcb, if_neg hn, if_neg ht, if_neg hf, ← hd,
    parseIntTok_renderInt]

theorem coerceScalar_renderDec (m : Int) (e : Nat) :
    coerceScalar (renderDec m e) = .ok (.num (.dec m e)) := by
  obtain ⟨c, cs, hd, hh⟩ := renderDec_head m e
  obtain ⟨hn, ht, hf, hsq, hcb⟩ := numHead_ne_lits hh
  rw [hd, coerceScalar, if_neg hsq, if_neg hcb, if_neg hn, if_neg ht, if_neg hf, ← hd,
    parseIntTok_renderDec, parseFloatTok_renderDec]

theorem coerceScalar_renderStrTok (s : String) :
    coerceScalar (renderStrTok s) = .ok (.str s) := by
  rw [renderStrTok]
  by_cases hq : needsQuoting s.data = true
  · rw [if_pos hq, renderQuoted, coerceScalar]
    rw [if_neg (cons_ne_of_head (by decide)), if_neg (cons_ne_of_head (by decide)),
      if_neg (cons_ne_of_head (by decide)), if_neg (cons_ne_of_head (by decide)),
      if_neg (cons_ne_of_head (by decide))]
    rw [parseIntTok_head_bad (by decide) (by decide),
      parseFloatTok_head_bad (by decide) (by decide) (by decide)]
    show (if ('"' : Char) = '"' then
        match unescapeAux (escapeChars s.data ++ ['"']) with
        | some (s2, []) => Except.ok (Value.str (String.mk s2))
        | some (_, _ :: _) =>
          Except.error (FormatError.parseError "unexpected characters after quoted string")
        | none => Except.error (FormatError.parseError "unterminated quoted string")
      else Except.ok (Value.str (String.mk ('"' :: (escapeChars s.data ++ ['"'])))))
      = Except.ok (Value.str s)
    rw [if_pos rfl,
      show escapeChars s.data ++ ['"'] = escapeChars s.data ++ '"' :: [] from rfl,
      unescapeAux_escape]
  · have hq2 : needsQuoting s.data = false := by
      cases hb : needsQuoting s.data with
      | false => rfl
      | true => exact absurd hb hq
    rw [if_neg hq]
    obtain ⟨hemp, hquo, _, _, _, _, _, _, _, _, hcns⟩ := needsQuoting_facts hq2
    obtain ⟨hn, ht, hf, hsq, hcb, hint, hflt⟩ := coercesNonString_facts hcns
    obtain ⟨c, rest, hd⟩ : ∃ c rest, s.data = c :: rest := by
      cases hsd : s.data with
      | nil => rw [hsd] at hemp; exact Bool.noConfusion hemp
      | cons c rest => exact ⟨c, rest, rfl⟩
    have hint2 : parseIntTok (c :: rest) = none := hd ▸ hint
    have hflt2 : parseFloatTok (c :: rest) = none := hd ▸ hflt
    rw [hd, coerceScalar, if_neg (hd ▸ hsq), if_neg (hd ▸ hcb), if_neg (hd ▸ hn),
      if_neg (hd ▸ ht), if_neg (hd ▸ hf), hint2, hflt2]
    have hcne : c ≠ '"' := headIs_false (hd ▸ hquo)
    show (if c = '"' then
        match unescapeAux rest with
        | some (s2, []) => Except.ok (Value.str (String.mk s2))
        | some (_, _ :: _) =>
          Except.error (FormatError.parseError "unexpected characters after quoted string")
        | none => Except.error (FormatError.parseError "unterminated quoted string")
      else Except.ok (Value.str (String.mk (c :: rest)))) = Except.ok (Value.str s)
    rw [if_neg hcne, ← hd, string_mk_data]

/-! ### Line splitting -/

/-- One logical line: leading-whitespace width and remaining content. -/
structure Line where
  indent : Nat
  content : List Char

/-- Split a character stream into lines at newline characters. -/
def splitLinesC : List Char → List (List Char)
  | [] => [[]]
  | c :: rest =>
    if c = '\n' then [] :: splitLinesC rest
    else match splitLinesC rest with
      | l :: ls => (c :: l) :: ls
      | [] => [[c]]

/-- Join lines with newline separators. -/
def joinLinesC : List (List Char) → List Char
  | [] => []
  | [l] => l
  | l :: ls => l ++ '\n' :: joinLinesC ls

/-- Count leading spaces and return the remaining content. -/
def dropIndent : List Char → Nat × List Char
  | [] => (0, [])
  | c :: rest =>
    if c = ' ' then ((dropIndent rest).1 + 1, (dropIndent rest).2)
    else (0, c :: rest)

/-- Modelled from the spec: each non-blank line yields its leading-whitespace
width as indentation depth and the rest as content; blank lines are skipped;
a tab in the indentation position is an error (§4.1). -/
def mkLines : List (List Char) → Except FormatError (List Line)
  | [] => .ok []
  | raw :: rest =>
    match (dropIndent raw).2 with
    | [] => mkLines rest
    | c :: cs2 =>
      if c = '\t' then .error (.parseError "tab character in indentation")
      else match mkLines rest with
        | .ok ls => .ok (⟨(dropIndent raw).1, c :: cs2⟩ :: ls)
        | .error e => .error e

/-! ### Decoder -/

def mkContainer (isSeq : Bool) (accS : List Value) (accM : List (String × Value)) : Value :=
  if isSeq then .seq accS else .map accM

/-- Split a character list at the first colon. -/
def splitAtColon : List Char → Option (List Char × List Char)
  | [] => none
  | c :: rest =>
    if c = ':' then some ([], rest)
    else (splitAtColon rest).map (fun p => (c :: p.1, p.2))

/-- Parse the key of a `key: value` line: a quoted string followed by a
colon, or the bare text before the first colon. -/
def parseKey (cs : List Char) : Except FormatError (String × List Char) :=
  match cs with
  | [] => .error (.parseError "expected key and colon")
  | c :: rest =>
    if c = '"' then
      match unescapeAux rest with
      | some (k, kr) =>
        match kr with
        | c2 :: r =>
          if c2 = ':' then .ok (String.mk k, r)
          else .error (.parseError "expected colon after quoted key")
        | [] => .error (.parseError "expected colon after quoted key")
      | none => .error (.parseError "unterminated quoted key")
    else
      match splitAtColon (c :: rest) with
      | some (k, r) => .ok (String.mk k, r)
      | none => .error (.parseError "expected key and colon")

def isOkKey : Except FormatError (String × List Char) → Bool
  | .ok _ => true
  | .error _ => false

/-- Whether a line's content has the shape of a sequence item (`-` alone or
`- ` followed by a value). -/
def isSeqStart : List Char → Bool
  | [] => false
  | c :: rest => (c == '-') && (rest.isEmpty || headIs rest ' ')

/-- Modelled from the spec: the block parser.  It consumes the sibling
entries of one container at indentation `ind`, maintaining the indentation
stack discipline: a line indented less closes the container, a line indented
more matches no open level and is an error, a `key:`/`-` opener requires its
children exactly one level (two spaces) deeper, and a duplicate key within
the same mapping is an error (§3, §4.1). -/
def parseItems : Nat → Bool → Nat → List Value → List (String × Value) → List Line →
    Except FormatError (Value × List Line)
  | _, isSeq, _, accS, accM, [] => .ok (mkContainer isSeq accS accM, [])
  | 0, _, _, _, _, _ :: _ => .error (.parseError "nesting too deep")
  | f + 1, isSeq, ind, accS, accM, l :: rest =>
    if l.indent < ind then .ok (mkContainer isSeq accS accM, l :: rest)
    else if ind < l.indent then .error (.parseError "indentation matches no open level")
    else if isSeq then
      match l.content with
      | [] => .error (.parseError "expected sequence item")
      | c :: after =>
        if c = '-' then
          match after with
          | [] =>
            match rest with
            | [] => .error (.parseError "missing indented block after opener")
            | l2 :: _ =>
              if l2.indent = ind + 2 then
                match parseItems f (isSeqStart l2.content) (ind + 2) [] [] rest with
                | .ok (v, rem) => parseItems f true ind (accS ++ [v]) accM rem
                | .error e => .error e
              else .error (.parseError "missing indented block after opener")
          | c2 :: tok =>
            if c2 = ' ' then
              match coerceScalar tok with
              | .ok v => parseItems f true ind (accS ++ [v]) accM rest
              | .error e => .error e
            else .error (.parseError "expected sequence item")
        else .error (.parseError "expected sequence item")
    else
      match parseKey l.content with
      | .error e => .error e
      | .ok (k, after) =>
        if (accM.map Prod.fst).contains k then .error (.parseError "duplicate key")
        else
          match after with
          | [] =>
            match rest with
            | [] => .error (.parseError "missing indented block after opener")
            | l2 :: _ =>
              if l2.indent = ind + 2 then
                match parseItems f (isSeqStart l2.content) (ind + 2) [] [] rest with
                | .ok (v, rem) => parseItems f false ind accS (accM ++ [(k, v)]) rem
                | .error e => .error e
              else .error (.parseError "missing indented block after opener")
          | c2 :: tok =>
            if c2 = ' ' then
              match coerceScalar tok with
              | .ok v => parseItems f false ind accS (accM ++ [(k, v)]) rest
              | .error e => .error e
            else .error (.parseError "expected space after colon")

/-- Modelled from the spec: parse a whole document.  Empty input yields an
empty mapping; a first line that is a sequence item or a `key:` line opens a
block at depth zero; a single remaining line is a scalar document (§4.1). -/
def parseDoc (ls : List Line) : Except FormatError Value :=
  match ls with
  | [] => .ok (.map [])
  | l :: rest =>
    if l.indent = 0 then
      if isSeqStart l.content then
        match parseItems ls.length true 0 [] [] ls with
        | .ok (v, []) => .ok v
        | .ok (_, _ :: _) => .error (.parseError "unconsumed input")
        | .error e => .error e
      else if isOkKey (parseKey l.content) then
        match parseItems ls.length false 0 [] [] ls with
        | .ok (v, []) => .ok v
        | .ok (_, _ :: _) => .error (.parseError "unconsumed input")
        | .error e => .error e
      else
        match rest with
        | [] => coerceScalar l.content
        | _ :: _ => .error (.parseError "expected key and colon")
    else .error (.parseError "indentation matches no open level")

/-- Modelled from the spec: `decode(text) -> Result<Value, FormatError>`
(§4.1): split into lines, resolve indentation, parse the block structure. -/
def decode (s : String) : Except FormatError Value :=
  match mkLines (splitLinesC s.data) with
  | .ok ls => parseDoc ls
  | .error e => .error e

/-! ### Encoder -/

/-- Whether a value renders inline as a single scalar token. -/
def isInline : Value → Bool
  | .seq xs => xs.isEmpty
  | .map es => es.isEmpty
  | _ => true

/-- Render an inline value as its scalar token. -/
def encInline : Value → Except FormatError (List Char)
  | .null => .ok "null".data
  | .bool true => .ok "true".data
  | .bool false => .ok "false".data
  | .num n => renderNum n
  | .str s => .ok (renderStrTok s)
  | .seq _ => .ok "[]".data
  | .map _ => .ok "\x7b\x7d".data

mutual

/-- Modelled from the spec: the block encoder (§4.2) — mappings and
sequences render as indented blocks, one entry per line, nested containers
two spaces deeper, empty containers as explicit inline markers. -/
def encBlock : Nat → Value → Except FormatError (List Line)
  | ind, .seq xs => encSeqItems ind xs
  | ind, .map es => encMapItems ind es
  | _, _ => .error (.unsupportedValue "not a block value")

def encSeqItems : Nat → List Value → Except FormatError (List Line)
  | _, [] => .ok []
  | ind, x :: xs =>
    match (if isInline x then
        match encInline x with
        | .ok tok => .ok [⟨ind, '-' :: ' ' :: tok⟩]
        | .error e => .error e
      else
        match encBlock (ind + 2) x with
        | .ok ls => .ok (⟨ind, ['-']⟩ :: ls)
        | .error e => .error e : Except FormatError (List Line)) with
    | .ok first =>
      match encSeqItems ind xs with
      | .ok restL => .ok (first ++ restL)
      | .error e => .error e
    | .error e => .error e

def encMapItems : Nat → List (String × Value) → Except FormatError (List Line)
  | _, [] => .ok []
  | ind, (k, v) :: es =>
    match (if isInline v then
        match encInline v with
        | .ok tok => .ok [⟨ind, renderKeyTok k ++ ':' :: ' ' :: tok⟩]
        | .error e => .error e
      else
        match encBlock (ind + 2) v with
        | .ok ls => .ok (⟨ind, renderKeyTok k ++ [':']⟩ :: ls)
        | .error e => .error e : Except FormatError (List Line)) with
    | .ok first =>
      match encMapItems ind es with
      | .ok restL => .ok (first ++ restL)
      | .error e => .error e
    | .error e => .error e

end

/-- Render a line with its indentation spaces. -/
def renderLine (l : Line) : List Char := List.replicate l.indent ' ' ++ l.content

/-- Modelled from the spec: `encode(value) -> Result<String, FormatError>`
(§4.2). -/
def encode (v : Value) : Except FormatError String :=
  if isInline v then
    match encInline v with
    | .ok tok => .ok (String.mk tok)
    | .error e => .error e
  else
    match encBlock 0 v with
    | .ok ls => .ok (String.mk (joinLinesC (ls.map renderLine)))
    | .error e => .error e

def finiteNum : TNum → Bool
  | .int _ => true
  | .dec _ _ => true
  | .nan => false
  | .inf _ => false

mutual

/-- Whether a value tree contains no non-finite number. -/
def allFinite : Value → Bool
  | .null => true
  | .bool _ => true
  | .str _ => true
  | .num n => finiteNum n
  | .seq xs => allFiniteL xs
  | .map es => allFiniteM es

def allFiniteL : List Value → Bool
  | [] => true
  | x :: xs => allFinite x && allFiniteL xs

def allFiniteM : List (String × Value) → Bool
  | [] => true
  | e :: es => allFinite e.2 && allFiniteM es

end

/-- Well-formed value trees per the data model of §3: all numbers finite and
mapping keys unique within each mapping. -/
inductive WF : Value → Prop where
  | null : WF .null
  | bool (b : Bool) : WF (.bool b)
  | int (i : Int) : WF (.num (.int i))
  | dec (m : Int) (e : Nat) : WF (.num (.dec m e))
  | str (s : String) : WF (.str s)
  | seq (xs : List Value) : (∀ x ∈ xs, WF x) → WF (.seq xs)
  | map (es : List (String × Value)) : (es.map Prod.fst).Nodup →
      (∀ e ∈ es, WF e.2) → WF (.map es)

/-! ### Parser step lemmas -/

theorem parseItems_nil (f : Nat) (isSeq : Bool) (ind : Nat) (accS : List Value)
    (accM : List (String × Value)) :
    parseItems f isSeq ind accS accM [] = .ok (mkContainer isSeq accS accM, []) := by
  cases f with
  | zero => rfl
  | succ f => rfl

theorem parseItems_dedent (ind : Nat) (l : Line) (h : l.indent < ind) (f : Nat) (isSeq : Bool)
    (accS : List Value) (accM : List (String × Value)) (rest : List Line) :
    parseItems (f + 1) isSeq ind accS accM (l :: rest) =
      .ok (mkContainer isSeq accS accM, l :: rest) := by
  simp only [parseItems]
  rw [if_pos h]

theorem parseItems_overindent (ind : Nat) (l : Line) (h : ind < l.indent) (f : Nat)
    (isSeq : Bool) (accS : List Value) (accM : List (String × Value)) (rest : List Line) :
    parseItems (f + 1) isSeq ind accS accM (l :: rest) =
      .error (.parseError "indentation matches no open level") := by
  simp only [parseItems]
  rw [if_neg (by omega), if_pos h]

theorem parseItems_map_scalar (ind : Nat) (l : Line) (h : l.indent = ind) (k : String)
    (tok : List Char) (v : Value) (accM : List (String × Value))
    (hkey : parseKey l.content = .ok (k, ' ' :: tok))
    (hcont : (accM.map Prod.fst).contains k = false)
    (hco : coerceScalar tok = .ok v) (f : Nat) (accS : List Value) (rest : List Line) :
    parseItems (f + 1) false ind accS accM (l :: rest) =
      parseItems f false ind accS (accM ++ [(k, v)]) rest := by
  simp only [parseItems]
  rw [if_neg (by omega), if_neg (by omega), if_neg Bool.false_ne_true]
  simp only [hkey, hcont, Bool.false_eq_true, if_false, eq_self_iff_true, if_true, hco]

theorem parseItems_map_dup (ind : Nat) (l : Line) (h : l.indent = ind) (k : String)
    (after : List Char) (accM : List (String × Value))
    (hkey : parseKey l.content = .ok (k, after))
    (hcont : (accM.map Prod.fst).contains k = true)
    (f : Nat) (accS : List Value) (rest : List Line) :
    parseItems (f + 1) false ind accS accM (l :: rest) =
      .error (.parseError "duplicate key") := by
  simp only [parseItems]
  rw [if_neg (by omega), if_neg (by omega), if_neg Bool.false_ne_true]
  simp only [hkey, hcont, if_true]
  

theorem parseItems_map_opener (ind : Nat) (l l2 : Line) (h : l.indent = ind) (k : String)
    (accM : List (String × Value))
    (hkey : parseKey l.content = .ok (k, []))
    (hcont : (accM.map Prod.fst).contains k = false)
    (hl2 : l2.indent = ind + 2) (f : Nat) (accS : List Value) (rest : List Line) :
    parseItems (f + 1) false ind accS accM (l :: l2 :: rest) =
      (match parseItems f (isSeqStart l2.content) (ind + 2) [] [] (l2 :: rest) with
        | .ok (v, rem) => parseItems f false ind accS (accM ++ [(k, v)]) rem
        | .error e => .error e) := by
  simp only [parseItems]
  rw [if_neg (by omega), if_neg (by omega), if_neg Bool.false_ne_true]
  simp only [hkey, hcont, Bool.false_eq_true, if_false, hl2, eq_self_iff_true, if_true]

theorem parseItems_seq_scalar (ind : Nat) (l : Line) (h : l.indent = ind)
    (tok : List Char) (v : Value)
    (hc : l.content = '-' :: ' ' :: tok)
    (hco : coerceScalar tok = .ok v) (f : Nat) (accS : List Value)
    (accM : List (String × Value)) (rest : List Line) :
    parseItems (f + 1) true ind accS accM (l :: rest) =
      parseItems f true ind (accS ++ [v]) accM rest := by
  simp only [parseItems]
  rw [if_neg (by omega), if_neg (by omega)]
  simp only [eq_self_iff_true, if_true, hc, hco]

theorem parseItems_seq_opener (ind : Nat) (l l2 : Line) (h : l.indent = ind)
    (hc : l.content = ['-']) (hl2 : l2.indent = ind + 2) (f : Nat) (accS : List Value)
    (accM : List (String × Value)) (rest : List Line) :
    parseItems (f + 1) true ind accS accM (l :: l2 :: rest) =
      (match parseItems f (isSeqStart l2.content) (ind + 2) [] [] (l2 :: rest) with
        | .ok (v, rem) => parseItems f true ind (accS ++ [v]) accM rem
        | .error e => .error e) := by
  simp only [parseItems]
  rw [if_neg (by omega), if_neg (by omega)]
  simp only [eq_self_iff_true, if_true, hc, hl2]

/-! ### Key parsing lemmas -/

theorem splitAtColon_not_mem {cs : List Char} (h : ':' ∉ cs) : splitAtColon cs = none := by
  induction cs with
  | nil => rfl
  | cons c cs2 ih =>
    have hcne : c ≠ ':' := fun hc => h (by rw [hc]; exact List.mem_cons_self _ _)
    simp only [splitAtColon]
    rw [if_neg hcne, ih (fun hm => h (List.mem_cons_of_mem c hm))]
    rfl

theorem splitAtColon_append {k : List Char} (tail : List Char) (h : ':' ∉ k) :
    splitAtColon (k ++ ':' :: tail) = some (k, tail) := by
  induction k with
  | nil =>
    show splitAtColon (':' :: tail) = some ([], tail)
    simp [splitAtColon]
  | cons c cs ih =>
    have hcne : c ≠ ':' := fun hc => h (by rw [hc]; exact List.mem_cons_self _ _)
    simp only [List.cons_append, splitAtColon]
    rw [if_neg hcne, show cs.append (':' :: tail) = cs ++ ':' :: tail from rfl,
      ih (fun hm => h (List.mem_cons_of_mem c hm))]
    rfl

theorem needsQuotingKey_facts {cs : List Char} (h : needsQuotingKey cs = false) :
    cs.isEmpty = false ∧ headIs cs '"' = false ∧ headIs cs ' ' = false ∧
    headIs cs '\t' = false ∧ headIs cs '-' = false ∧ cs.contains ':' = false ∧
    cs.contains '\n' = false ∧ cs.contains '\r' = false := by
  rw [needsQuotingKey] at h
  simp only [Bool.or_eq_false_iff] at h
  exact ⟨h.1.1.1.1.1.1.1, h.1.1.1.1.1.1.2, h.1.1.1.1.1.2, h.1.1.1.1.2, h.1.1.1.2,
    h.1.1.2, h.1.2, h.2⟩

theorem not_mem_of_contains_false {cs : List Char} {c : Char} (h : cs.contains c = false) :
    c ∉ cs := by
  simp at h
  exact h

theorem parseKey_render (k : String) (tail : List Char) :
    parseKey (renderKeyTok k ++ ':' :: tail) = .ok (k, tail) := by
  rw [renderKeyTok]
  by_cases hq : needsQuotingKey k.data = true
  · rw [if_pos hq, renderQuoted]
    show parseKey ('"' :: ((escapeChars k.data ++ ['"']) ++ ':' :: tail)) = _
    simp only [parseKey]
    rw [if_pos trivial, List.append_assoc,
      show ['"'] ++ ':' :: tail = '"' :: ':' :: tail from rfl, unescapeAux_escape]
    simp only [eq_self_iff_true, if_true]
  · have hq2 : needsQuotingKey k.data = false := by
      cases hb : needsQuotingKey k.data with
      | false => rfl
      | true => exact absurd hb hq
    rw [if_neg hq]
    obtain ⟨hemp, hquo, _, _, _, hcol, _, _⟩ := needsQuotingKey_facts hq2
    obtain ⟨c, rest, hd⟩ : ∃ c rest, k.data = c :: rest := by
      cases hsd : k.data with
      | nil => rw [hsd] at hemp; exact Bool.noConfusion hemp
      | cons c rest => exact ⟨c, rest, rfl⟩
    have hcq : c ≠ '"' := headIs_false (hd ▸ hquo)
    have hcm : ':' ∉ k.data := not_mem_of_contains_false hcol
    rw [hd, List.cons_append]
    simp only [parseKey]
    rw [if_neg hcq]
    have hsplit : splitAtColon (c :: (rest ++ ':' :: tail)) = some (c :: rest, tail) := by
      have := splitAtColon_append (k := c :: rest) tail (hd ▸ hcm)
      rw [List.cons_append] at this
      exact this
    rw [hsplit]
    show Except.ok (String.mk (c :: rest), tail) = _
    rw [← hd, string_mk_data]

theorem parseKey_no_colon {c : Char} {cs : List Char} (h1 : c ≠ '"') (h2 : ':' ∉ c :: cs) :
    parseKey (c :: cs) = .error (.parseError "expected key and colon") := by
  simp only [parseKey]
  rw [if_neg h1, splitAtColon_not_mem h2]

theorem parseKey_quoted_eol (s : List Char) :
    parseKey ('"' :: (escapeChars s ++ ['"'])) =
      .error (.parseError "expected colon after quoted key") := by
  simp only [parseKey]
  rw [if_pos trivial, show escapeChars s ++ ['"'] = escapeChars s ++ '"' :: [] from rfl,
    unescapeAux_escape]

/-! ### Token classification -/

theorem not_mem_natDigits {c : Char} (h : isDigitC c = false) (n : Nat) :
    c ∉ natDigits n := by
  intro hm
  have := allDigits_mem (allDigits_natDigits n) hm
  rw [h] at this
  exact Bool.noConfusion this

theorem not_mem_renderInt {c : Char} (h1 : isDigitC c = false) (h2 : c ≠ '-') (i : Int) :
    c ∉ renderInt i := by
  rw [renderInt]
  by_cases h : i < 0
  · rw [if_pos h]
    intro hm
    cases hm with
    | head => exact h2 rfl
    | tail _ hm2 => exact not_mem_natDigits h1 i.natAbs hm2
  · rw [if_neg h]
    exact not_mem_natDigits h1 i.natAbs

theorem not_mem_renderUDec {c : Char} (h1 : isDigitC c = false) (h2 : c ≠ '.')
    (k n : Nat) (hk : 0 < k) : c ∉ renderUDec k n := by
  obtain ⟨ip, fp, heq, hip, hfp, _, _, _, _⟩ := renderUDec_spec k n hk
  rw [heq]
  intro hm
  rw [List.mem_append] at hm
  cases hm with
  | inl hm2 =>
    have := allDigits_mem hip hm2
    rw [h1] at this
    exact Bool.noConfusion this
  | inr hm2 =>
    cases hm2 with
    | head => exact h2 rfl
    | tail _ hm3 =>
      have := allDigits_mem hfp hm3
      rw [h1] at this
      exact Bool.noConfusion this

theorem not_mem_renderDec {c : Char} (h1 : isDigitC c = false) (h2 : c ≠ '-')
    (h3 : c ≠ '.') (m : Int) (e : Nat) : c ∉ renderDec m e := by
  rw [renderDec]
  intro hm
  rw [List.mem_append] at hm
  cases hm with
  | inl hm2 =>
    by_cases h : m < 0
    · rw [if_pos h] at hm2
      rw [List.mem_singleton] at hm2
      exact h2 hm2
    · rw [if_neg h] at hm2
      cases hm2
  | inr hm2 => exact not_mem_renderUDec h1 h3 (e + 1) m.natAbs (by omega) hm2

theorem isSeqStart_false_of_head {cs : List Char} (h : headIs cs '-' = false) :
    isSeqStart cs = false := by
  cases cs with
  | nil => rfl
  | cons c rest =>
    show ((c == '-') && (rest.isEmpty || headIs rest ' ')) = false
    have h2 : (c == '-') = false := h
    rw [h2]
    rfl

/-! ### Round-trip scaffolding -/

def isSeqV : Value → Bool
  | .seq _ => true
  | _ => false

/-- Facts about a scalar token that make it safe as (part of) a line. -/
def tokOK (tok : List Char) : Prop :=
  tok ≠ [] ∧ headIs tok ' ' = false ∧ headIs tok '\t' = false ∧ '\n' ∉ tok ∧
  isSeqStart tok = false ∧ isOkKey (parseKey tok) = false

/-- Facts about a produced line that make line splitting invertible. -/
def lineOK (l : Line) : Prop :=
  l.content ≠ [] ∧ headIs l.content ' ' = false ∧ headIs l.content '\t' = false ∧
  '\n' ∉ l.content

def restOK (ind : Nat) : List Line → Prop
  | [] => True
  | l :: _ => l.indent < ind

theorem headIs_of_ne {c d : Char} (cs : List Char) (h : c ≠ d) : headIs (c :: cs) d = false := by
  show (c == d) = false
  simp [h]

theorem isSeqStart_renderInt (i : Int) : isSeqStart (renderInt i) = false := by
  rw [renderInt]
  obtain ⟨c, cs, hd, hdig⟩ := exists_head_natDigits i.natAbs
  by_cases h : i < 0
  · rw [if_pos h, hd]
    show (('-' == '-') && ((c :: cs).isEmpty || headIs (c :: cs) ' ')) = false
    rw [headIs_of_ne cs (digit_ne hdig (by decide))]
    rfl
  · rw [if_neg h, hd]
    exact isSeqStart_false_of_head (headIs_of_ne cs (digit_ne hdig (by decide)))

theorem isSeqStart_renderDec (m : Int) (e : Nat) : isSeqStart (renderDec m e) = false := by
  rw [renderDec]
  obtain ⟨a, as, hd, hdig, _⟩ := renderUDec_head (e + 1) m.natAbs (by omega)
  by_cases h : m < 0
  · rw [if_pos h, List.singleton_append, hd]
    show (('-' == '-') && ((a :: as).isEmpty || headIs (a :: as) ' ')) = false
    rw [headIs_of_ne as (digit_ne hdig (by decide))]
    rfl
  · rw [if_neg h, List.nil_append, hd]
    exact isSeqStart_false_of_head (headIs_of_ne as (digit_ne hdig (by decide)))

theorem isOkKey_renderInt (i : Int) : isOkKey (parseKey (renderInt i)) = false := by
  obtain ⟨c, cs, hd, hh⟩ := renderInt_head i
  have hcq : c ≠ '"' := by
    cases hh with
    | inl h => rw [h]; decide
    | inr h => exact digit_ne h (by decide)
  have hcol : ':' ∉ renderInt i := not_mem_renderInt (by decide) (by decide) i
  rw [hd] at hcol ⊢
  rw [parseKey_no_colon hcq hcol]
  rfl

theorem isOkKey_renderDec (m : Int) (e : Nat) : isOkKey (parseKey (renderDec m e)) = false := by
  obtain ⟨c, cs, hd, hh⟩ := renderDec_head m e
  have hcq : c ≠ '"' := by
    cases hh with
    | inl h => rw [h]; decide
    | inr h => exact digit_ne h (by decide)
  have hcol : ':' ∉ renderDec m e := not_mem_renderDec (by decide) (by decide) (by decide) m e
  rw [hd] at hcol ⊢
  rw [parseKey_no_colon hcq hcol]
  rfl

theorem tokOK_renderInt (i : Int) : tokOK (renderInt i) := by
  obtain ⟨c, cs, hd, hh⟩ := renderInt_head i
  have hcs : ∀ d : Char, isDigitC d = false → d ≠ '-' → c ≠ d := by
    intro d h1 h2
    cases hh with
    | inl h => rw [h]; exact fun he => h2 he.symm
    | inr h => exact digit_ne h h1
  refine ⟨by rw [hd]; simp, ?_, ?_, ?_, isSeqStart_renderInt i, isOkKey_renderInt i⟩
  · rw [hd]
    exact headIs_of_ne cs (hcs ' ' (by decide) (by decide))
  · rw [hd]
    exact headIs_of_ne cs (hcs '\t' (by decide) (by decide))
  · exact not_mem_renderInt (by decide) (by decide) i

theorem tokOK_renderDec (m : Int) (e : Nat) : tokOK (renderDec m e) := by
  obtain ⟨c, cs, hd, hh⟩ := renderDec_head m e
  have hcs : ∀ d : Char, isDigitC d = false → d ≠ '-' → c ≠ d := by
    intro d h1 h2
    cases hh with
    | inl h => rw [h]; exact fun he => h2 he.symm
    | inr h => exact digit_ne h h1
  refine ⟨by rw [hd]; simp, ?_, ?_, ?_, isSeqStart_renderDec m e, isOkKey_renderDec m e⟩
  · rw [hd]
    exact headIs_of_ne cs (hcs ' ' (by decide) (by decide))
  · rw [hd]
    exact headIs_of_ne cs (hcs '\t' (by decide) (by decide))
  · exact not_mem_renderDec (by decide) (by decide) (by decide) m e

theorem newline_not_mem_renderQuoted (s : List Char) : '\n' ∉ renderQuoted s := by
  rw [renderQuoted]
  intro hm
  cases hm with
  | tail _ hm2 =>
    rcases List.mem_append.mp hm2 with h | h
    · exact newline_not_mem_escapeChars s h
    · rw [List.mem_singleton] at h
      exact absurd h (by decide)

theorem tokOK_renderStrTok (s : String) : tokOK (renderStrTok s) := by
  rw [renderStrTok]
  by_cases hq : needsQuoting s.data = true
  · rw [if_pos hq, renderQuoted]
    refine ⟨by simp, headIs_of_ne _ (by decide), headIs_of_ne _ (by decide), ?_, ?_, ?_⟩
    · have := newline_not_mem_renderQuoted s.data
      rw [renderQuoted] at this
      exact this
    · exact isSeqStart_false_of_head (headIs_of_ne _ (by decide))
    · rw [parseKey_quoted_eol]
      rfl
  · have hq2 : needsQuoting s.data = false := by
      cases hb : needsQuoting s.data with
      | false => rfl
      | true => exact absurd hb hq
    rw [if_neg hq]
    obtain ⟨hemp, hquo, hsp, htab, hdash, _, _, hcol, hnl, _, _⟩ := needsQuoting_facts hq2
    obtain ⟨c, rest, hd⟩ : ∃ c rest, s.data = c :: rest := by
      cases hsd : s.data with
      | nil => rw [hsd] at hemp; exact Bool.noConfusion hemp
      | cons c rest => exact ⟨c, rest, rfl⟩
    refine ⟨by rw [hd]; simp, hsp, htab, not_mem_of_contains_false hnl,
      isSeqStart_false_of_head hdash, ?_⟩
    rw [hd, parseKey_no_colon (headIs_false (hd ▸ hquo)) (hd ▸ not_mem_of_contains_false hcol)]
    rfl

/-- Every inline well-formed value has a scalar token that encodes it, coerces
back to it, and is safe as line content. -/
theorem encInline_ok {v : Value} (hwf : WF v) (hinl : isInline v = true) :
    ∃ tok, encInline v = .ok tok ∧ coerceScalar tok = .ok v ∧ tokOK tok := by
  cases hwf with
  | null => exact ⟨"null".data, rfl, rfl, by decide, by decide, by decide, by decide,
      by decide, by decide⟩
  | bool b =>
    cases b with
    | true => exact ⟨"true".data, rfl, rfl, by decide, by decide, by decide, by decide,
        by decide, by decide⟩
    | false => exact ⟨"false".data, rfl, rfl, by decide, by decide, by decide, by decide,
        by decide, by decide⟩
  | int i => exact ⟨renderInt i, rfl, coerceScalar_renderInt i, tokOK_renderInt i⟩
  | dec m e => exact ⟨renderDec m e, rfl, coerceScalar_renderDec m e, tokOK_renderDec m e⟩
  | str s => exact ⟨renderStrTok s, rfl, coerceScalar_renderStrTok s, tokOK_renderStrTok s⟩
  | seq xs hmem =>
    have hnil : xs = [] := by
      have h2 : xs.isEmpty = true := hinl
      cases xs with
      | nil => rfl
      | cons a as => exact Bool.noConfusion h2
    subst hnil
    exact ⟨"[]".data, rfl, rfl, by decide, by decide, by decide, by decide,
      by decide, by decide⟩
  | map es hnd hmem =>
    have hnil : es = [] := by
      have h2 : es.isEmpty = true := hinl
      cases es with
      | nil => rfl
      | cons a as => exact Bool.noConfusion h2
    subst hnil
    exact ⟨"\x7b\x7d".data, rfl, rfl, by decide, by decide, by decide, by decide,
      by decide, by decide⟩

theorem renderKeyTok_facts (k : String) :
    ∃ c cs, renderKeyTok k = c :: cs ∧ c ≠ ' ' ∧ c ≠ '\t' ∧ c ≠ '-' ∧ '\n' ∉ (c :: cs) := by
  rw [renderKeyTok]
  by_cases hq : needsQuotingKey k.data = true
  · rw [if_pos hq]
    have hnl := newline_not_mem_renderQuoted k.data
    rw [renderQuoted] at hnl ⊢
    exact ⟨'"', _, rfl, by decide, by decide, by decide, hnl⟩
  · have hq2 : needsQuotingKey k.data = false := by
      cases hb : needsQuotingKey k.data with
      | false => rfl
      | true => exact absurd hb hq
    rw [if_neg hq]
    obtain ⟨hemp, _, hsp, htab, hdash, _, hnl, _⟩ := needsQuotingKey_facts hq2
    obtain ⟨c, rest, hd⟩ : ∃ c rest, k.data = c :: rest := by
      cases hsd : k.data with
      | nil => rw [hsd] at hemp; exact Bool.noConfusion hemp
      | cons c rest => exact ⟨c, rest, rfl⟩
    rw [hd]
    exact ⟨c, rest, rfl, headIs_false (hd ▸ hsp), headIs_false (hd ▸ htab),
      headIs_false (hd ▸ hdash), hd ▸ not_mem_of_contains_false hnl⟩

theorem mapContent_facts (k : String) (t : List Char) (ht : '\n' ∉ t) :
    (renderKeyTok k ++ ':' :: t) ≠ [] ∧ headIs (renderKeyTok k ++ ':' :: t) ' ' = false ∧
    headIs (renderKeyTok k ++ ':' :: t) '\t' = false ∧ '\n' ∉ (renderKeyTok k ++ ':' :: t) ∧
    isSeqStart (renderKeyTok k ++ ':' :: t) = false := by
  obtain ⟨c, cs, hd, h1, h2, h3, h4⟩ := renderKeyTok_facts k
  rw [hd, List.cons_append]
  refine ⟨by simp, headIs_of_ne _ h1, headIs_of_ne _ h2, ?_,
    isSeqStart_false_of_head (headIs_of_ne _ h3)⟩
  intro hm
  cases hm with
  | head => exact h4 (List.mem_cons_self _ _)
  | tail _ hm2 =>
    rcases List.mem_append.mp hm2 with h | h
    · exact h4 (List.mem_cons_of_mem c h)
    · cases h with
      | tail _ h2m => exact ht h2m

/-- The full block-level encoding/parsing fact for a container value. -/
def BlockFact (v : Value) : Prop :=
  ∀ ind, ∃ ls, encBlock ind v = .ok ls ∧ ls ≠ [] ∧ (∀ l ∈ ls, lineOK l) ∧
    (∃ l0 tl, ls = l0 :: tl ∧ l0.indent = ind ∧ isSeqStart l0.content = isSeqV v ∧
      (isSeqV v = false → isOkKey (parseKey l0.content) = true)) ∧
    (∀ f rest, restOK ind rest → ls.length + rest.length ≤ f →
      parseItems f (isSeqV v) ind [] [] (ls ++ rest) = .ok (v, rest))

theorem encSeqItems_parse (ind : Nat) :
    ∀ (ys : List Value),
    (∀ x ∈ ys, WF x) → (∀ x ∈ ys, isInline x = false → BlockFact x) →
    ∃ ls, encSeqItems ind ys = .ok ls ∧ (∀ l ∈ ls, lineOK l) ∧
      (ys = [] → ls = []) ∧
      (ys ≠ [] → ∃ l0 tl, ls = l0 :: tl ∧ l0.indent = ind ∧ isSeqStart l0.content = true) ∧
      (∀ (f : Nat) (rest : List Line) (accS2 : List Value), restOK ind rest →
        ls.length + rest.length ≤ f →
        parseItems f true ind accS2 [] (ls ++ rest) = .ok (.seq (accS2 ++ ys), rest)) := by
  intro ys
  induction ys with
  | nil =>
    intro _ _
    refine ⟨[], rfl, ?_, fun _ => rfl, fun h => absurd rfl h, ?_⟩
    · intro l hl
      cases hl
    · intro f rest accS2 hr hf
      rw [List.nil_append]
      cases rest with
      | nil =>
        rw [parseItems_nil]
        show Except.ok (Value.seq accS2, ([] : List Line)) = _
        rw [List.append_nil]
      | cons l rs =>
        cases f with
        | zero => exfalso; simp at hf
        | succ g =>
          rw [parseItems_dedent ind l hr]
          show Except.ok (Value.seq accS2, l :: rs) = _
          rw [List.append_nil]
  | cons x ys2 ih =>
    intro hwf hbf
    have hwx : WF x := hwf x (List.mem_cons_self _ _)
    obtain ⟨ls2, hls2, hlok2, hnil2, hshape2, hparse2⟩ :=
      ih (fun y hy => hwf y (List.mem_cons_of_mem _ hy))
        (fun y hy h => hbf y (List.mem_cons_of_mem _ hy) h)
    have hrest2 : ∀ (rest : List Line), restOK ind rest → restOK (ind + 2) (ls2 ++ rest) := by
      intro rest hr
      cases hys2 : ys2 with
      | nil =>
        rw [hnil2 hys2, List.nil_append]
        cases rest with
        | nil => trivial
        | cons l rs =>
          show l.indent < ind + 2
          have h2 : l.indent < ind := hr
          omega
      | cons a as =>
        obtain ⟨l0, tl, hl0, hl0i, _⟩ := hshape2 (by rw [hys2]; intro h; cases h)
        rw [hl0, List.cons_append]
        show l0.indent < ind + 2
        omega
    by_cases hinl : isInline x = true
    · obtain ⟨tok, henc, hco, htne, htsp, htt, htnl, htss, htkey⟩ := encInline_ok hwx hinl
      refine ⟨⟨ind, '-' :: ' ' :: tok⟩ :: ls2, ?_, ?_, ?_, ?_, ?_⟩
      · simp only [encSeqItems, hinl, if_true, henc, hls2]
        rfl
      · intro l hl
        cases hl with
        | head =>
          refine ⟨by simp, headIs_of_ne _ (by decide), headIs_of_ne _ (by decide), ?_⟩
          intro hm
          cases hm with
          | tail _ hm2 =>
            cases hm2 with
            | tail _ hm3 => exact htnl hm3
        | tail _ hl2 => exact hlok2 l hl2
      · intro h
        cases h
      · intro _
        exact ⟨_, _, rfl, rfl, rfl⟩
      · intro f rest accS2 hr hf
        cases f with
        | zero => exfalso; simp at hf
        | succ g =>
          rw [List.cons_append,
            parseItems_seq_scalar ind ⟨ind, '-' :: ' ' :: tok⟩ rfl tok x rfl hco g accS2 []
              (ls2 ++ rest)]
          rw [hparse2 g rest (accS2 ++ [x]) hr (by simp at hf ⊢; omega)]
          rw [show (accS2 ++ [x]) ++ ys2 = accS2 ++ x :: ys2 from by simp]
    · have hinl2 : isInline x = false := by
        cases hb : isInline x with
        | false => rfl
        | true => exact absurd hb hinl
      obtain ⟨lsc, hlsc, hcne, hclok, hcshape, hcparse⟩ :=
        hbf x (List.mem_cons_self _ _) hinl2 (ind + 2)
      obtain ⟨l2, tl2, hc2, hl2i, hl2s, _⟩ := hcshape
      refine ⟨⟨ind, ['-']⟩ :: (lsc ++ ls2), ?_, ?_, ?_, ?_, ?_⟩
      · simp only [encSeqItems, hinl2, Bool.false_eq_true, if_false, hlsc, hls2]
        rfl
      · intro l hl
        cases hl with
        | head => exact ⟨by simp, headIs_of_ne _ (by decide), headIs_of_ne _ (by decide),
            by show '\n' ∉ ['-']; decide⟩
        | tail _ hl2 =>
          rcases List.mem_append.mp hl2 with h | h
          · exact hclok l h
          · exact hlok2 l h
      · intro h
        cases h
      · intro _
        exact ⟨_, _, rfl, rfl, rfl⟩
      · intro f rest accS2 hr hf
        cases f with
        | zero => exfalso; simp at hf
        | succ g =>
          rw [List.cons_append, List.append_assoc, hc2, List.cons_append,
            parseItems_seq_opener ind ⟨ind, ['-']⟩ l2 rfl rfl hl2i g accS2 []
              (tl2 ++ (ls2 ++ rest))]
          rw [hl2s]
          have hchild := hcparse g (ls2 ++ rest) (hrest2 rest hr) (by
            rw [hc2] at hf ⊢
            simp at hf ⊢
            omega)
          rw [show l2 :: (tl2 ++ (ls2 ++ rest)) = lsc ++ (ls2 ++ rest) from by
            rw [hc2]; rfl, hchild]
          show parseItems g true ind (accS2 ++ [x]) [] (ls2 ++ rest) = _
          rw [hparse2 g rest (accS2 ++ [x]) hr (by
            rw [hc2] at hf
            simp at hf ⊢
            omega)]
          rw [show (accS2 ++ [x]) ++ ys2 = accS2 ++ x :: ys2 from by simp]

theorem encMapItems_parse (ind : Nat) :
    ∀ (es : List (String × Value)),
    (∀ e ∈ es, WF e.2) → (∀ e ∈ es, isInline e.2 = false → BlockFact e.2) →
    ∃ ls, encMapItems ind es = .ok ls ∧ (∀ l ∈ ls, lineOK l) ∧
      (es = [] → ls = []) ∧
      (es ≠ [] → ∃ l0 tl, ls = l0 :: tl ∧ l0.indent = ind ∧ isSeqStart l0.content = false ∧
        isOkKey (parseKey l0.content) = true) ∧
      (∀ (f : Nat) (rest : List Line) (accM2 : List (String × Value)), restOK ind rest →
        ls.length + rest.length ≤ f →
        ((accM2 ++ es).map Prod.fst).Nodup →
        parseItems f false ind [] accM2 (ls ++ rest) = .ok (.map (accM2 ++ es), rest)) := by
  intro es
  induction es with
  | nil =>
    intro _ _
    refine ⟨[], rfl, ?_, fun _ => rfl, fun h => absurd rfl h, ?_⟩
    · intro l hl
      cases hl
    · intro f rest accM2 hr hf _
      rw [List.nil_append]
      cases rest with
      | nil =>
        rw [parseItems_nil]
        show Except.ok (Value.map accM2, ([] : List Line)) = _
        rw [List.append_nil]
      | cons l rs =>
        cases f with
        | zero => exfalso; simp at hf
        | succ g =>
          rw [parseItems_dedent ind l hr]
          show Except.ok (Value.map accM2, l :: rs) = _
          rw [List.append_nil]
  | cons e es2 ih =>
    obtain ⟨k, v⟩ := e
    intro hwf hbf
    have hwx : WF v := hwf (k, v) (List.mem_cons_self _ _)
    obtain ⟨ls2, hls2, hlok2, hnil2, hshape2, hparse2⟩ :=
      ih (fun y hy => hwf y (List.mem_cons_of_mem _ hy))
        (fun y hy h => hbf y (List.mem_cons_of_mem _ hy) h)
    have hrest2 : ∀ (rest : List Line), restOK ind rest → restOK (ind + 2) (ls2 ++ rest) := by
      intro rest hr
      cases hes2 : es2 with
      | nil =>
        rw [hnil2 hes2, List.nil_append]
        cases rest with
        | nil => trivial
        | cons l rs =>
          show l.indent < ind + 2
          have h2 : l.indent < ind := hr
          omega
      | cons a as =>
        obtain ⟨l0, tl, hl0, hl0i, _⟩ := hshape2 (by rw [hes2]; intro h; cases h)
        rw [hl0, List.cons_append]
        show l0.indent < ind + 2
        omega
    have hkfacts : ∀ (accM2 : List (String × Value)),
        ((accM2 ++ (k, v) :: es2).map Prod.fst).Nodup →
        (accM2.map Prod.fst).contains k = false := by
      intro accM2 hnd
      rw [List.map_append, List.nodup_append] at hnd
      have hknotin : k ∉ accM2.map Prod.fst := by
        intro hk
        exact hnd.2.2 hk (by simp)
      simp
      intro x hx
      exact hknotin (List.mem_map_of_mem Prod.fst hx)
    have hndcont : ∀ (accM2 : List (String × Value)),
        ((accM2 ++ (k, v) :: es2).map Prod.fst).Nodup →
        (((accM2 ++ [(k, v)]) ++ es2).map Prod.fst).Nodup := by
      intro accM2 hnd
      rw [List.append_assoc]
      exact hnd
    by_cases hinl : isInline v = true
    · obtain ⟨tok, henc, hco, htne, htsp, htt, htnl, htss, htkey⟩ := encInline_ok hwx hinl
      obtain ⟨hcne, hcsp, hct, hcnl, hcss⟩ := mapContent_facts k (' ' :: tok)
        (by intro hm; cases hm with | tail _ hm2 => exact htnl hm2)
      refine ⟨⟨ind, renderKeyTok k ++ ':' :: ' ' :: tok⟩ :: ls2, ?_, ?_, ?_, ?_, ?_⟩
      · simp only [encMapItems, hinl, if_true, henc, hls2]
        rfl
      · intro l hl
        cases hl with
        | head => exact ⟨hcne, hcsp, hct, hcnl⟩
        | tail _ hl2 => exact hlok2 l hl2
      · intro h
        cases h
      · intro _
        refine ⟨_, _, rfl, rfl, hcss, ?_⟩
        show isOkKey (parseKey (renderKeyTok k ++ ':' :: ' ' :: tok)) = true
        rw [parseKey_render]
        rfl
      · intro f rest accM2 hr hf hnd
        cases f with
        | zero => exfalso; simp at hf
        | succ g =>
          rw [List.cons_append,
            parseItems_map_scalar ind ⟨ind, renderKeyTok k ++ ':' :: ' ' :: tok⟩ rfl k tok v
              accM2 (parseKey_render k (' ' :: tok)) (hkfacts accM2 hnd) hco g [] (ls2 ++ rest)]
          rw [hparse2 g rest (accM2 ++ [(k, v)]) hr (by simp at hf ⊢; omega)
            (hndcont accM2 hnd)]
          rw [show (accM2 ++ [(k, v)]) ++ es2 = accM2 ++ (k, v) :: es2 from by simp]
    · have hinl2 : isInline v = false := by
        cases hb : isInline v with
        | false => rfl
        | true => exact absurd hb hinl
      obtain ⟨lsc, hlsc, hcne0, hclok, hcshape, hcparse⟩ :=
        hbf (k, v) (List.mem_cons_self _ _) hinl2 (ind + 2)
      obtain ⟨l2, tl2, hc2, hl2i, hl2s, _⟩ := hcshape
      obtain ⟨hcne, hcsp, hct, hcnl, hcss⟩ := mapContent_facts k []
        (by intro hm; cases hm)
      refine ⟨⟨ind, renderKeyTok k ++ [':']⟩ :: (lsc ++ ls2), ?_, ?_, ?_, ?_, ?_⟩
      · simp only [encMapItems, hinl2, Bool.false_eq_true, if_false, hlsc, hls2]
        rfl
      · intro l hl
        cases hl with
        | head => exact ⟨hcne, hcsp, hct, hcnl⟩
        | tail _ hl2 =>
          rcases List.mem_append.mp hl2 with h | h
          · exact hclok l h
          · exact hlok2 l h
      · intro h
        cases h
      · intro _
        refine ⟨_, _, rfl, rfl, hcss, ?_⟩
        show isOkKey (parseKey (renderKeyTok k ++ ':' :: [])) = true
        rw [parseKey_render]
        rfl
      · intro f rest accM2 hr hf hnd
        cases f with
        | zero => exfalso; simp at hf
        | succ g =>
          rw [List.cons_append, List.append_assoc, hc2, List.cons_append,
            parseItems_map_opener ind ⟨ind, renderKeyTok k ++ [':']⟩ l2 rfl k accM2
              (parseKey_render k []) (hkfacts accM2 hnd) hl2i g [] (tl2 ++ (ls2 ++ rest))]
          rw [hl2s]
          have hchild := hcparse g (ls2 ++ rest) (hrest2 rest hr) (by
            rw [hc2] at hf ⊢
            simp at hf ⊢
            omega)
          rw [show l2 :: (tl2 ++ (ls2 ++ rest)) = lsc ++ (ls2 ++ rest) from by
            rw [hc2]; rfl, hchild]
          show parseItems g false ind [] (accM2 ++ [(k, v)]) (ls2 ++ rest) = _
          rw [hparse2 g rest (accM2 ++ [(k, v)]) hr (by
            rw [hc2] at hf
            simp at hf ⊢
            omega) (hndcont accM2 hnd)]
          rw [show (accM2 ++ [(k, v)]) ++ es2 = accM2 ++ (k, v) :: es2 from by simp]

/-- The block encoder and the block parser are mutually inverse on every
well-formed container value. -/
theorem encBlock_parse {v : Value} (hwf : WF v) : isInline v = false → BlockFact v := by
  induction hwf with
  | null => intro h; exact Bool.noConfusion h
  | bool b => intro h; exact Bool.noConfusion h
  | int i => intro h; exact Bool.noConfusion h
  | dec m e => intro h; exact Bool.noConfusion h
  | str s => intro h; exact Bool.noConfusion h
  | seq xs hmem ih =>
    intro hinl ind
    obtain ⟨ls, hls, hlok, hnil0, hshape, hparse⟩ := encSeqItems_parse ind xs hmem ih
    have hne : xs ≠ [] := by
      intro h
      subst h
      exact Bool.noConfusion hinl
    obtain ⟨l0, tl, hl0, hl0i, hl0s⟩ := hshape hne
    refine ⟨ls, hls, by rw [hl0]; simp, hlok,
      ⟨l0, tl, hl0, hl0i, hl0s, fun h => Bool.noConfusion h⟩, ?_⟩
    intro f rest hr hf
    have h2 := hparse f rest [] hr hf
    rw [List.nil_append] at h2
    exact h2
  | map es hnd hmem ih =>
    intro hinl ind
    obtain ⟨ls, hls, hlok, hnil0, hshape, hparse⟩ := encMapItems_parse ind es hmem ih
    have hne : es ≠ [] := by
      intro h
      subst h
      exact Bool.noConfusion hinl
    obtain ⟨l0, tl, hl0, hl0i, hl0s, hl0k⟩ := hshape hne
    refine ⟨ls, hls, by rw [hl0]; simp, hlok,
      ⟨l0, tl, hl0, hl0i, hl0s, fun _ => hl0k⟩, ?_⟩
    intro f rest hr hf
    have h2 := hparse f rest [] hr hf (by rw [List.nil_append]; exact hnd)
    rw [List.nil_append] at h2
    exact h2

/-! ### Top-level round trip -/

theorem splitLinesC_no_newline : ∀ {l : List Char}, '\n' ∉ l → splitLinesC l = [l] := by
  intro l
  induction l with
  | nil => intro _; rfl
  | cons c cs ih =>
    intro h
    have hc : c ≠ '\n' := fun hc => h (by rw [hc]; exact List.mem_cons_self _ _)
    simp only [splitLinesC]
    rw [if_neg hc, ih (fun hm => h (List.mem_cons_of_mem c hm))]

theorem splitLinesC_append : ∀ {l : List Char}, '\n' ∉ l → ∀ (rest : List Char),
    splitLinesC (l ++ '\n' :: rest) = l :: splitLinesC rest := by
  intro l
  induction l with
  | nil =>
    intro _ rest
    show splitLinesC ('\n' :: rest) = [] :: splitLinesC rest
    simp [splitLinesC]
  | cons c cs ih =>
    intro h rest
    have hc : c ≠ '\n' := fun hc => h (by rw [hc]; exact List.mem_cons_self _ _)
    simp only [List.cons_append, splitLinesC]
    rw [if_neg hc, show cs.append ('\n' :: rest) = cs ++ '\n' :: rest from rfl,
      ih (fun hm => h (List.mem_cons_of_mem c hm)) rest]

theorem splitLinesC_joinLinesC : ∀ (ls : List (List Char)), ls ≠ [] →
    (∀ l ∈ ls, '\n' ∉ l) → splitLinesC (joinLinesC ls) = ls := by
  intro ls
  induction ls with
  | nil => intro h _; exact absurd rfl h
  | cons l ls2 ih =>
    intro _ hnl
    cases ls2 with
    | nil =>
      show splitLinesC (joinLinesC [l]) = [l]
      rw [show joinLinesC [l] = l from rfl]
      exact splitLinesC_no_newline (hnl l (List.mem_cons_self _ _))
    | cons l2 ls3 =>
      rw [show joinLinesC (l :: l2 :: ls3) = l ++ '\n' :: joinLinesC (l2 :: ls3) from rfl]
      rw [splitLinesC_append (hnl l (List.mem_cons_self _ _)) (joinLinesC (l2 :: ls3))]
      rw [ih (by intro h; cases h) (fun x hx => hnl x (List.mem_cons_of_mem l hx))]

theorem dropIndent_replicate : ∀ (n : Nat) {c : Char}, c ≠ ' ' → ∀ (cs : List Char),
    dropIndent (List.replicate n ' ' ++ c :: cs) = (n, c :: cs) := by
  intro n
  induction n with
  | zero =>
    intro c h cs
    show dropIndent (c :: cs) = (0, c :: cs)
    show (if c = ' ' then ((dropIndent cs).1 + 1, (dropIndent cs).2) else (0, c :: cs))
      = (0, c :: cs)
    rw [if_neg h]
  | succ n ih =>
    intro c h cs
    rw [List.replicate_succ, List.cons_append]
    show (if ' ' = ' '
        then ((dropIndent (List.replicate n ' ' ++ c :: cs)).1 + 1,
          (dropIndent (List.replicate n ' ' ++ c :: cs)).2)
        else (0, ' ' :: (List.replicate n ' ' ++ c :: cs))) = (n + 1, c :: cs)
    rw [if_pos rfl, ih h cs]

theorem newline_not_mem_renderLine {l : Line} (h : lineOK l) : '\n' ∉ renderLine l := by
  rw [renderLine]
  intro hm
  rcases List.mem_append.mp hm with h2 | h2
  · rw [List.mem_replicate] at h2
    exact absurd h2.2 (by decide)
  · exact h.2.2.2 h2

theorem mkLines_render : ∀ (ls : List Line), (∀ l ∈ ls, lineOK l) →
    mkLines (ls.map renderLine) = .ok ls := by
  intro ls
  induction ls with
  | nil => intro _; rfl
  | cons l ls2 ih =>
    intro hlok
    obtain ⟨hne, hsp, htab, _⟩ := hlok l (List.mem_cons_self _ _)
    obtain ⟨c, cs, hd⟩ := List.exists_cons_of_ne_nil hne
    have hcsp : c ≠ ' ' := headIs_false (hd ▸ hsp)
    have hctab : c ≠ '\t' := headIs_false (hd ▸ htab)
    have hdi : dropIndent (renderLine l) = (l.indent, c :: cs) := by
      rw [renderLine, hd]
      exact dropIndent_replicate l.indent hcsp cs
    rw [List.map_cons]
    simp only [mkLines, hdi]
    rw [if_neg hctab, ih (fun x hx => hlok x (List.mem_cons_of_mem l hx))]
    show Except.ok (⟨l.indent, c :: cs⟩ :: ls2) = Except.ok (l :: ls2)
    rw [show (⟨l.indent, c :: cs⟩ : Line) = l from by rw [← hd]]

/-- Modelled from the spec, the central round-trip theorem (§8): decoding the
encoding of any well-formed value yields the value back. -/
theorem decode_encode {v : Value} (hwf : WF v) : ∃ s, encode v = .ok s ∧ decode s = .ok v := by
  by_cases hinl : isInline v = true
  · obtain ⟨tok, henc, hco, htne, htsp, htt, htnl, htss, htkey⟩ := encInline_ok hwf hinl
    refine ⟨String.mk tok, ?_, ?_⟩
    · rw [encode, if_pos hinl, henc]
    · show (match mkLines (splitLinesC tok) with
        | .ok ls => parseDoc ls
        | .error e => .error e) = .ok v
      rw [splitLinesC_no_newline htnl]
      obtain ⟨c, cs, hd⟩ := List.exists_cons_of_ne_nil htne
      have hcsp : c ≠ ' ' := headIs_false (hd ▸ htsp)
      have hctab : c ≠ '\t' := headIs_false (hd ▸ htt)
      have hdi : dropIndent tok = (0, c :: cs) := by
        rw [hd]
        have := dropIndent_replicate 0 hcsp cs
        rw [List.replicate_zero, List.nil_append] at this
        exact this
      have hmk : mkLines [tok] = .ok [⟨0, tok⟩] := by
        simp only [mkLines, hdi]
        rw [if_neg hctab, ← hd]
      rw [hmk]
      simp only [parseDoc]
      split_ifs with h1 h2 h3
      · rw [htss] at h2
        exact Bool.noConfusion h2
      · rw [htkey] at h3
        exact Bool.noConfusion h3
      · exact hco
      · exact absurd trivial h1
      · exact absurd trivial h1
      · exact absurd trivial h1
  · have hinl2 : isInline v = false := by
      cases hb : isInline v with
      | false => rfl
      | true => exact absurd hb hinl
    obtain ⟨ls, hls, hlsne, hlok, ⟨l0, tl, hl0, hl0i, hl0s, hl0k⟩, hparse⟩ :=
      encBlock_parse hwf hinl2 0
    refine ⟨String.mk (joinLinesC (ls.map renderLine)), ?_, ?_⟩
    · rw [encode, if_neg hinl, hls]
    · show (match mkLines (splitLinesC (joinLinesC (ls.map renderLine))) with
        | .ok ls2 => parseDoc ls2
        | .error e => .error e) = .ok v
      rw [splitLinesC_joinLinesC (ls.map renderLine) (by simp [hlsne])
        (by
          intro raw hraw
          obtain ⟨l, hl, hleq⟩ := List.mem_map.mp hraw
          rw [← hleq]
          exact newline_not_mem_renderLine (hlok l hl))]
      rw [mkLines_render ls hlok]
      have hp := hparse ls.length [] trivial (by simp)
      rw [List.append_nil] at hp
      rw [hl0]
      simp only [parseDoc]
      rw [hl0] at hp
      split_ifs with h1 h2
      · have hsv : isSeqV v = true := by rw [← hl0s]; exact h1
        rw [hsv] at hp
        rw [hp]
      · have hsv : isSeqV v = false := by
          cases hb : isSeqV v with
          | true => rw [hb] at hl0s; exact absurd hl0s h1
          | false => rfl
        rw [hsv] at hp
        rw [hp]
      · cases hb : isSeqV v with
        | true => rw [hb] at hl0s; exact absurd hl0s h1
        | false => exact absurd (hl0k hb) h2

/-! ### Encoder success characterization -/

theorem encInlineOk : ∀ (v : Value), isInline v = true →
    (encInline v).isOk = allFinite v := by
  intro v hinl
  cases v with
  | null => rfl
  | bool b => cases b <;> rfl
  | num n => cases n <;> rfl
  | str s => rfl
  | seq xs =>
    cases xs with
    | nil => rfl
    | cons a as => exact Bool.noConfusion hinl
  | map es =>
    cases es with
    | nil => rfl
    | cons a as => exact Bool.noConfusion hinl

mutual

theorem encBlockOk : ∀ (ind : Nat) (v : Value), isInline v = false →
    (encBlock ind v).isOk = allFinite v
  | ind, .seq xs, _ => by
    rw [show encBlock ind (.seq xs) = encSeqItems ind xs from rfl,
      show allFinite (.seq xs) = allFiniteL xs from rfl]
    exact encSeqItemsOk ind xs
  | ind, .map es, _ => by
    rw [show encBlock ind (.map es) = encMapItems ind es from rfl,
      show allFinite (.map es) = allFiniteM es from rfl]
    exact encMapItemsOk ind es
  | _, .null, h => Bool.noConfusion h
  | _, .bool _, h => Bool.noConfusion h
  | _, .num _, h => Bool.noConfusion h
  | _, .str _, h => Bool.noConfusion h

theorem encSeqItemsOk : ∀ (ind : Nat) (xs : List Value),
    (encSeqItems ind xs).isOk = allFiniteL xs
  | _, [] => rfl
  | ind, x :: xs => by
    have ih := encSeqItemsOk ind xs
    rw [show allFiniteL (x :: xs) = (allFinite x && allFiniteL xs) from rfl]
    by_cases hinl : isInline x = true
    · have hx := encInlineOk x hinl
      cases henc : encInline x with
      | ok tok =>
        rw [henc] at hx
        simp only [encSeqItems, hinl, if_true, henc]
        cases hrec : encSeqItems ind xs with
        | ok ls2 =>
          rw [hrec] at ih
          rw [← hx, ← ih]
          rfl
        | error e =>
          rw [hrec] at ih
          rw [← hx, ← ih]
          rfl
      | error e =>
        rw [henc] at hx
        simp only [encSeqItems, hinl, if_true, henc]
        rw [← hx]
        rfl
    · have hinl2 : isInline x = false := by
        cases hb : isInline x with
        | false => rfl
        | true => exact absurd hb hinl
      have hx := encBlockOk (ind + 2) x hinl2
      cases henc : encBlock (ind + 2) x with
      | ok lsc =>
        rw [henc] at hx
        simp only [encSeqItems, hinl2, Bool.false_eq_true, if_false, henc]
        cases hrec : encSeqItems ind xs with
        | ok ls2 =>
          rw [hrec] at ih
          rw [← hx, ← ih]
          rfl
        | error e =>
          rw [hrec] at ih
          rw [← hx, ← ih]
          rfl
      | error e =>
        rw [henc] at hx
        simp only [encSeqItems, hinl2, Bool.false_eq_true, if_false, henc]
        rw [← hx]
        rfl

theorem encMapItemsOk : ∀ (ind : Nat) (es : List (String × Value)),
    (encMapItems ind es).isOk = allFiniteM es
  | _, [] => rfl
  | ind, (k, v) :: es => by
    have ih := encMapItemsOk ind es
    rw [show allFiniteM ((k, v) :: es) = (allFinite v && allFiniteM es) from rfl]
    by_cases hinl : isInline v = true
    · have hx := encInlineOk v hinl
      cases henc : encInline v with
      | ok tok =>
        rw [henc] at hx
        simp only [encMapItems, hinl, if_true, henc]
        cases hrec : encMapItems ind es with
        | ok ls2 =>
          rw [hrec] at ih
          rw [← hx, ← ih]
          rfl
        | error e =>
          rw [hrec] at ih
          rw [← hx, ← ih]
          rfl
      | error e =>
        rw [henc] at hx
        simp only [encMapItems, hinl, if_true, henc]
        rw [← hx]
        rfl
    · have hinl2 : isInline v = false := by
        cases hb : isInline v with
        | false => rfl
        | true => exact absurd hb hinl
      have hx := encBlockOk (ind + 2) v hinl2
      cases henc : encBlock (ind + 2) v with
      | ok lsc =>
        rw [henc] at hx
        simp only [encMapItems, hinl2, Bool.false_eq_true, if_false, henc]
        cases hrec : encMapItems ind es with
        | ok ls2 =>
          rw [hrec] at ih
          rw [← hx, ← ih]
          rfl
        | error e =>
          rw [hrec] at ih
          rw [← hx, ← ih]
          rfl
      | error e =>
        rw [henc] at hx
        simp only [encMapItems, hinl2, Bool.false_eq_true, if_false, henc]
        rw [← hx]
        rfl

end

theorem encodeOk_iff (v : Value) : (encode v).isOk = allFinite v := by
  by_cases hinl : isInline v = true
  · have hx := encInlineOk v hinl
    rw [encode, if_pos hinl]
    cases henc : encInline v with
    | ok tok =>
      rw [henc] at hx
      rw [← hx]
      rfl
    | error e =>
      rw [henc] at hx
      rw [← hx]
      rfl
  · have hinl2 : isInline v = false := by
      cases hb : isInline v with
      | false => rfl
      | true => exact absurd hb hinl
    have hx := encBlockOk 0 v hinl2
    rw [encode, if_neg hinl]
    cases henc : encBlock 0 v with
    | ok ls =>
      rw [henc] at hx
      rw [← hx]
      rfl
    | error e =>
      rw [henc] at hx
      rw [← hx]
      rfl

/-! ### The rtoon entry points and the repository's wrapper functions -/

/-- Modelled from the spec: the external `rtoon` crate's `to_toon` entry
point, the codec encoder (§4.2); the options argument — always `None` in this
repository — selects no alternative behaviour. -/
def rtoon.to_toon (v : Value) (_opts : Option Unit) : Except FormatError String :=
  encode v

/-- Modelled from the spec: the external `rtoon` crate's `from_toon` entry
point, the codec decoder (§4.1). -/
def rtoon.from_toon (s : String) (_opts : Option Unit) : Except FormatError Value :=
  decode s

/-- A boxed dynamic error value (`Box<dyn std::error::Error>`), holding the
underlying error. -/
inductive BoxedError where
  | box (e : FormatError)
deriving DecidableEq

/-- Translated from `src/common/format.rs` lines 34-36: `toon::to_string`
forwards to `rtoon::to_toon(value, None)`, boxing the error. -/
def toon.to_string (v : Value) : Except BoxedError String :=
  (rtoon.to_toon v none).mapError BoxedError.box

/-- Translated from `src/common/format.rs` lines 39-41: `toon::from_str`
forwards to `rtoon::from_toon(s, None)`, boxing the error. -/
def toon.from_str (s : String) : Except BoxedError Value :=
  (rtoon.from_toon s none).mapError BoxedError.box

/-! ### Typed bridge -/

/-- Modelled from the spec: the §8 typed-bridge example record
`{name, age, active, roles}`. -/
structure Spec8Profile where
  name : String
  age : Nat
  active : Bool
  roles : List String
deriving DecidableEq

/-- Modelled from the spec: `to_value` of the Typed Bridge (§4.3) — each
field maps to a mapping key with the field's declared name. -/
def Spec8Profile.toValue (p : Spec8Profile) : Value :=
  .map [("name", .str p.name), ("age", .num (.int p.age)), ("active", .bool p.active),
    ("roles", .seq (p.roles.map Value.str))]

/-- Look up a key among a mapping's entries. -/
def lookupKey (k : String) : List (String × Value) → Option Value
  | [] => none
  | (k2, v) :: es => if k2 = k then some v else lookupKey k es

/-- Read a sequence of strings out of a list of values. -/
def strListOfValues : List Value → Except FormatError (List String)
  | [] => .ok []
  | v :: rest =>
    match v with
    | .str s =>
      match strListOfValues rest with
      | .ok l => .ok (s :: l)
      | .error e => .error e
    | _ => .error (.typeMismatch "string" "other value")

/-- Modelled from the spec: `from_value` of the Typed Bridge (§4.3) — reads
each field by its name; a missing required field produces `MissingField`, a
shape mismatch produces `TypeMismatch`. -/
def Spec8Profile.fromValue (v : Value) : Except FormatError Spec8Profile :=
  match v with
  | .map es =>
    match lookupKey "name" es with
    | none => .error (.missingField "name")
    | some nv =>
      match nv with
      | .str nm =>
        match lookupKey "age" es with
        | none => .error (.missingField "age")
        | some av =>
          match av with
          | .num (.int a) =>
            if a < 0 then .error (.typeMismatch "nonnegative integer" "negative integer")
            else
              match lookupKey "active" es with
              | none => .error (.missingField "active")
              | some bv =>
                match bv with
                | .bool b =>
                  match lookupKey "roles" es with
                  | none => .error (.missingField "roles")
                  | some rv =>
                    match rv with
                    | .seq xs =>
                      match strListOfValues xs with
                      | .ok rs => .ok ⟨nm, a.toNat, b, rs⟩
                      | .error e => .error e
                    | _ => .error (.typeMismatch "sequence" "other value")
                | _ => .error (.typeMismatch "boolean" "other value")
          | _ => .error (.typeMismatch "integer" "other value")
      | _ => .error (.typeMismatch "string" "other value")
  | _ => .error (.typeMismatch "mapping" "other value")

/-! ### Claim theorems -/

/-- The specification's description of `toon::to_string`: a pure pass-through
returning exactly the result of `rtoon::to_toon(value, None)`, with the error
(if any) boxed. -/
def specPassThroughToString (v : Value) : Except BoxedError String :=
  match rtoon.to_toon v none with
  | .ok s => .ok s
  | .error e => .error (BoxedError.box e)

/-- The specification's description of `toon::from_str`: a pure pass-through
returning exactly the result of `rtoon::from_toon(s, None)`, with the error
(if any) boxed. -/
def specPassThroughFromStr (s : String) : Except BoxedError Value :=
  match rtoon.from_toon s none with
  | .ok v => .ok v
  | .error e => .error (BoxedError.box e)

/-- C1: the format module is a pure pass-through wrapper — `toon.to_string`
returns exactly `rtoon.to_toon v None` with the error boxed, `toon.from_str`
returns exactly `rtoon.from_toon s None` with the error boxed, and success
and error results correspond one to one, so the wrappers add no logic of
their own. -/
theorem claim_C1 :
    (∀ v : Value, toon.to_string v = specPassThroughToString v) ∧
    (∀ s : String, toon.from_str s = specPassThroughFromStr s) ∧
    (∀ (v : Value) (out : String), toon.to_string v = .ok out ↔ rtoon.to_toon v none = .ok out) ∧
    (∀ (v : Value) (e : FormatError),
      toon.to_string v = .error (.box e) ↔ rtoon.to_toon v none = .error e) ∧
    (∀ (s : String) (w : Value), toon.from_str s = .ok w ↔ rtoon.from_toon s none = .ok w) ∧
    (∀ (s : String) (e : FormatError),
      toon.from_str s = .error (.box e) ↔ rtoon.from_toon s none = .error e) := by
  refine ⟨?_, ?_, ?_, ?_, ?_, ?_⟩
  · intro v
    rw [toon.to_string, specPassThroughToString]
    cases rtoon.to_toon v none <;> rfl
  · intro s
    rw [toon.from_str, specPassThroughFromStr]
    cases rtoon.from_toon s none <;> rfl
  · intro v out
    rw [toon.to_string]
    cases rtoon.to_toon v none <;> simp [Except.mapError]
  · intro v e
    rw [toon.to_string]
    cases rtoon.to_toon v none <;> simp [Except.mapError]
  · intro s w
    rw [toon.from_str]
    cases rtoon.from_toon s none <;> simp [Except.mapError]
  · intro s e
    rw [toon.from_str]
    cases rtoon.from_toon s none <;> simp [Except.mapError]

/-- C3: the concrete structure `{name: "Alice", age: 28, active: true,
roles: ["developer", "reviewer"]}` survives the typed round trip — through
the Value model via `from_value (to_value x) = x`, and equivalently through
text via `to_string` followed by `from_str`. -/
theorem claim_C3 :
    Spec8Profile.fromValue (Spec8Profile.toValue ⟨"Alice", 28, true, ["developer", "reviewer"]⟩) =
      .ok ⟨"Alice", 28, true, ["developer", "reviewer"]⟩ ∧
    toon.to_string (Spec8Profile.toValue ⟨"Alice", 28, true, ["developer", "reviewer"]⟩) =
      .ok "name: Alice\nage: 28\nactive: true\nroles:\n  - developer\n  - reviewer" ∧
    toon.from_str "name: Alice\nage: 28\nactive: true\nroles:\n  - developer\n  - reviewer" =
      .ok (Spec8Profile.toValue ⟨"Alice", 28, true, ["developer", "reviewer"]⟩) :=
  ⟨rfl, rfl, rfl⟩

/-- C4: scalar-coercion precedence — the bare tokens `true`, `123`, `1.5` and
`null` decode to a boolean, an integer, a float (`15 × 10^-1`) and null
respectively, while the same content in quotes decodes to the corresponding
string; the first matching pattern of the priority order wins. -/
theorem claim_C4 :
    decode "true" = .ok (.bool true) ∧
    decode "123" = .ok (.num (.int 123)) ∧
    decode "1.5" = .ok (.num (.dec 15 0)) ∧
    decode "null" = .ok .null ∧
    decode "\"true\"" = .ok (.str "true") ∧
    decode "\"123\"" = .ok (.str "123") ∧
    decode "\"1.5\"" = .ok (.str "1.5") ∧
    decode "\"null\"" = .ok (.str "null") :=
  ⟨rfl, rfl, rfl, rfl, rfl, rfl, rfl, rfl⟩

/-- C7: decoding the empty input string succeeds and returns an empty
Mapping, not an error. -/
theorem claim_C7 : decode "" = .ok (.map []) := rfl

/-- C8: encoding fails exactly on non-finite numbers — `encode` returns an
error if and only if the tree contains a NaN or an Infinity, and on a
non-finite number the error surfaced is `UnsupportedValue`, never a silent
coercion. -/
theorem claim_C8 :
    (∀ v : Value, (∃ e, encode v = .error e) ↔ allFinite v = false) ∧
    encode (.num .nan) = .error (.unsupportedValue "non-finite number: NaN") ∧
    encode (.map [("x", .seq [.num (.inf false)])]) =
      .error (.unsupportedValue "non-finite number: Infinity") := by
  refine ⟨?_, rfl, rfl⟩
  intro v
  constructor
  · rintro ⟨e, he⟩
    rw [← encodeOk_iff, he]
    rfl
  · intro h
    have h2 := encodeOk_iff v
    rw [h] at h2
    cases henc : encode v with
    | ok s =>
      rw [henc] at h2
      exact Bool.noConfusion h2
    | error e => exact ⟨e, rfl⟩

/-- C9: encode and decode are deterministic pure functions — two runs on
equal inputs return equal results; in this embedding both wrappers are total
functions of their argument alone, reading and writing no other state. -/
theorem claim_C9 :
    (∀ v1 v2 : Value, v1 = v2 → toon.to_string v1 = toon.to_string v2) ∧
    (∀ s1 s2 : String, s1 = s2 → toon.from_str s1 = toon.from_str s2) :=
  ⟨fun _ _ h => by rw [h], fun _ _ h => by rw [h]⟩

theorem claim_C9_witness :
    Value.null = Value.null ∧ toon.to_string Value.null = toon.to_string Value.null ∧
    "a" = "a" ∧ toon.from_str "a" = toon.from_str "a" :=
  ⟨rfl, claim_C9.1 .null .null rfl, rfl, claim_C9.2 "a" "a" rfl⟩

/-- C10: the wrapper functions are total — for every input each returns a
`Result`, passing a success value through unchanged and converting every
failure of the underlying call into an `Err` boxing the underlying error;
no input escapes these two outcomes. -/
theorem claim_C10 :
    (∀ v : Value, (∃ s, toon.to_string v = .ok s ∧ rtoon.to_toon v none = .ok s) ∨
      (∃ e, toon.to_string v = .error (.box e) ∧ rtoon.to_toon v none = .error e)) ∧
    (∀ s : String, (∃ w, toon.from_str s = .ok w ∧ rtoon.from_toon s none = .ok w) ∨
      (∃ e, toon.from_str s = .error (.box e) ∧ rtoon.from_toon s none = .error e)) := by
  constructor
  · intro v
    rw [toon.to_string]
    cases h : rtoon.to_toon v none with
    | ok s => exact Or.inl ⟨s, rfl, rfl⟩
    | error e => exact Or.inr ⟨e, rfl, rfl⟩
  · intro s
    rw [toon.from_str]
    cases h : rtoon.from_toon s none with
    | ok w => exact Or.inl ⟨w, rfl, rfl⟩
    | error e => exact Or.inr ⟨e, rfl, rfl⟩

/-- C2: encode-then-decode is the identity on well-formed data — for every
Value tree of the data model (keys unique within each mapping, per §3)
containing no non-finite numbers, encoding succeeds and decoding the
produced text yields a value equal to the original. -/
theorem claim_C2 (v : Value) (hwf : WF v) :
    ∃ s, encode v = .ok s ∧ decode s = .ok v :=
  decode_encode hwf

theorem claim_C2_witness :
    WF (Value.map [("a", .num (.int 1)), ("b", .seq [.str "x", .null])]) ∧
    ∃ s, encode (Value.map [("a", .num (.int 1)), ("b", .seq [.str "x", .null])]) = .ok s ∧
      decode s = .ok (Value.map [("a", .num (.int 1)), ("b", .seq [.str "x", .null])]) := by
  have hwf : WF (Value.map [("a", .num (.int 1)), ("b", .seq [.str "x", .null])]) := by
    refine WF.map _ (by simp) ?_
    intro e he
    cases he with
    | head => exact WF.int 1
    | tail _ h2 =>
      cases h2 with
      | tail _ h4 => cases h4
      | head =>
        refine WF.seq _ ?_
        intro x hx
        cases hx with
        | head => exact WF.str "x"
        | tail _ h3 =>
          cases h3 with
          | head => exact WF.null
          | tail _ h5 => cases h5
  exact ⟨hwf, claim_C2 _ hwf⟩

/-- C5: inconsistent indentation is a decode error — inside any open
container a line indented deeper than the current open level (hence matching
no open nesting level on the stack) makes the block parser return a
`ParseError` rather than guessing a structure, a top-level first line with
nonzero indentation is likewise a `ParseError`, and two concrete documents
exhibit this end to end through `decode`. -/
theorem claim_C5 :
    (∀ (f : Nat) (isSeq : Bool) (ind : Nat) (accS : List Value)
      (accM : List (String × Value)) (l : Line) (rest : List Line), ind < l.indent →
      parseItems (f + 1) isSeq ind accS accM (l :: rest) =
        .error (.parseError "indentation matches no open level")) ∧
    (∀ (l : Line) (rest : List Line), l.indent ≠ 0 →
      parseDoc (l :: rest) = .error (.parseError "indentation matches no open level")) ∧
    decode " a: 1" = .error (.parseError "indentation matches no open level") ∧
    decode "a: 1\n   b: 2" = .error (.parseError "indentation matches no open level") := by
  refine ⟨?_, ?_, rfl, rfl⟩
  · intro f isSeq ind accS accM l rest h
    exact parseItems_overindent ind l h f isSeq accS accM rest
  · intro l rest h
    simp only [parseDoc]
    rw [if_neg h]

theorem claim_C5_witness :
    ((0 : Nat) < (⟨3, ['b']⟩ : Line).indent ∧
      parseItems 1 false 0 [] [] [⟨3, ['b']⟩] =
        .error (.parseError "indentation matches no open level")) ∧
    ((⟨2, ['a']⟩ : Line).indent ≠ 0 ∧
      parseDoc [⟨2, ['a']⟩] = .error (.parseError "indentation matches no open level")) :=
  ⟨⟨by decide, claim_C5.1 0 false 0 [] [] ⟨3, ['b']⟩ [] (by decide)⟩,
   ⟨by decide, claim_C5.2.1 ⟨2, ['a']⟩ [] (by decide)⟩⟩

/-- C6: duplicate keys are a decode error — the block parser rejects any
mapping entry whose key already occurs among its accumulated siblings at the
same depth, for every key and pair of inline well-formed values the
two-entry document carrying that key twice decodes to a `ParseError`, and a
concrete document exhibits it end to end. -/
theorem claim_C6 :
    (∀ (f ind : Nat) (accS : List Value) (accM : List (String × Value)) (l : Line)
      (rest : List Line) (k : String) (after : List Char), l.indent = ind →
      parseKey l.content = .ok (k, after) → (accM.map Prod.fst).contains k = true →
      parseItems (f + 1) false ind accS accM (l :: rest) =
        .error (.parseError "duplicate key")) ∧
    (∀ (k : String) (a b : Value), WF a → WF b → isInline a = true → isInline b = true →
      ∃ s, encode (.map [(k, a), (k, b)]) = .ok s ∧
        decode s = .error (.parseError "duplicate key")) ∧
    decode "a: 1\na: 2" = .error (.parseError "duplicate key") := by
  refine ⟨?_, ?_, rfl⟩
  · intro f ind accS accM l rest k after h hkey hcont
    exact parseItems_map_dup ind l h k after accM hkey hcont f accS rest
  · intro k a b hwa hwb hia hib
    obtain ⟨ta, hea, hca, hane, hasp, hat, hanl, hass, hakey⟩ := encInline_ok hwa hia
    obtain ⟨tb, heb, hcb, hbne, hbsp, hbt, hbnl, hbss, hbkey⟩ := encInline_ok hwb hib
    obtain ⟨h1ne, h1sp, h1t, h1nl, h1ss⟩ := mapContent_facts k (' ' :: ta)
      (by intro hm; cases hm with | tail _ hm2 => exact hanl hm2)
    obtain ⟨h2ne, h2sp, h2t, h2nl, h2ss⟩ := mapContent_facts k (' ' :: tb)
      (by intro hm; cases hm with | tail _ hm2 => exact hbnl hm2)
    have hencb : encMapItems 0 [(k, a), (k, b)] =
        .ok [⟨0, renderKeyTok k ++ ':' :: ' ' :: ta⟩,
          ⟨0, renderKeyTok k ++ ':' :: ' ' :: tb⟩] := by
      simp only [encMapItems, hia, hib, if_true, hea, heb]
      rfl
    have hlok : ∀ l ∈ [(⟨0, renderKeyTok k ++ ':' :: ' ' :: ta⟩ : Line),
        ⟨0, renderKeyTok k ++ ':' :: ' ' :: tb⟩], lineOK l := by
      intro l hl
      cases hl with
      | head => exact ⟨h1ne, h1sp, h1t, h1nl⟩
      | tail _ hl2 =>
        cases hl2 with
        | head => exact ⟨h2ne, h2sp, h2t, h2nl⟩
        | tail _ hl3 => cases hl3
    refine ⟨String.mk (joinLinesC
      ([(⟨0, renderKeyTok k ++ ':' :: ' ' :: ta⟩ : Line),
        ⟨0, renderKeyTok k ++ ':' :: ' ' :: tb⟩].map renderLine)), ?_, ?_⟩
    · rw [encode, if_neg (fun h => Bool.noConfusion h)]
      rw [show encBlock 0 (Value.map [(k, a), (k, b)]) = encMapItems 0 [(k, a), (k, b)]
        from rfl, hencb]
    · show (match mkLines (splitLinesC (joinLinesC
          ([(⟨0, renderKeyTok k ++ ':' :: ' ' :: ta⟩ : Line),
            ⟨0, renderKeyTok k ++ ':' :: ' ' :: tb⟩].map renderLine))) with
        | .ok ls2 => parseDoc ls2
        | .error e => .error e) = .error (.parseError "duplicate key")
      rw [splitLinesC_joinLinesC _ (by simp) (by
        intro raw hraw
        obtain ⟨l, hl, hleq⟩ := List.mem_map.mp hraw
        rw [← hleq]
        exact newline_not_mem_renderLine (hlok l hl))]
      rw [mkLines_render _ hlok]
      simp only [parseDoc]
      split_ifs with h1 h2 h3
      · rw [h1ss] at h2
        exact Bool.noConfusion h2
      · rw [show ([(⟨0, renderKeyTok k ++ ':' :: ' ' :: ta⟩ : Line),
            ⟨0, renderKeyTok k ++ ':' :: ' ' :: tb⟩] : List Line).length = 1 + 1 from rfl]
        rw [parseItems_map_scalar 0 ⟨0, renderKeyTok k ++ ':' :: ' ' :: ta⟩ rfl k ta a []
          (parseKey_render k (' ' :: ta)) rfl hca 1 []
          [⟨0, renderKeyTok k ++ ':' :: ' ' :: tb⟩]]
        rw [show (([] : List (String × Value)) ++ [(k, a)]) = [(k, a)] from rfl]
        rw [show (1 : Nat) = 0 + 1 from rfl]
        rw [parseItems_map_dup 0 ⟨0, renderKeyTok k ++ ':' :: ' ' :: tb⟩ rfl k (' ' :: tb)
          [(k, a)] (parseKey_render k (' ' :: tb)) (by simp) 0 [] []]
      · rw [parseKey_render k (' ' :: ta)] at h3
        exact absurd rfl h3
      · exact absurd trivial h1
      · exact absurd trivial h1
      · exact absurd trivial h1

/-- Witness for C6: the general duplicate-key facts instantiated at the key
"a" with integer values 1 and 2 — the parser step fires on a concrete line,
and the encoded two-entry document decodes to the duplicate-key error. -/
theorem claim_C6_witness :
    parseItems 1 false 0 [] [("a", Value.num (.int 1))]
      [⟨0, ['a', ':', ' ', '2']⟩] = .error (.parseError "duplicate key") ∧
    (∃ s, encode (Value.map [("a", Value.num (.int 1)), ("a", Value.num (.int 2))]) = .ok s ∧
      decode s = .error (.parseError "duplicate key")) := by
  constructor
  · exact claim_C6.1 0 0 [] [("a", Value.num (.int 1))] ⟨0, ['a', ':', ' ', '2']⟩ []
      "a" [' ', '2'] rfl rfl rfl
  · exact claim_C6.2.1 "a" (Value.num (.int 1)) (Value.num (.int 2))
      (WF.int 1) (WF.int 2) rfl rfl
